import Mathlib

/-!
Verification development for the fastxml repository (a single-pass XML
tokenizer in Go).  Byte buffers are modelled as `List Nat` (each element a
byte value).  Go functions from the `bytes` package are modelled byte-wise:
`bytes.IndexByte`, `bytes.Index` and `bytes.IndexRune` (only ever called
with ASCII runes in this code base) are modelled byte-wise; the rune-based
`bytes.IndexFunc`, `bytes.LastIndexFunc` and `unicode.IsSpace` are modelled
with genuine UTF-8 decoding in the attribute-iteration section.  A Go `-1`
result is modelled as `none`.
-/

/-- Byte value of an ASCII character. -/
def byteOf (c : Char) : Nat := c.toNat

/-- Bytes of an ASCII string literal. -/
def strBytes (s : String) : List Nat := s.data.map fun c => c.toNat

/-- Model of Go `bytes.IndexByte` (`-1` becomes `none`). -/
def indexByte : List Nat → Nat → Option Nat
  | [], _ => none
  | b :: t, c => if b = c then some 0 else (indexByte t c).map (· + 1)

/-- Byte-level first-index search, a proof-side helper: the rune-based
model of `bytes.IndexFunc` (`bytesIndexFunc` below) coincides with it on
ASCII input, which the bridge lemmas establish. -/
def indexFunc (p : Nat → Bool) : List Nat → Option Nat
  | [] => none
  | b :: t => if p b then some 0 else (indexFunc p t).map (· + 1)

/-- Byte-level last-index search, a proof-side helper: the rune-based
model of `bytes.LastIndexFunc` (`bytesLastIndexFunc` below) coincides with
it on ASCII input, which the bridge lemmas establish. -/
def lastIndexFunc (p : Nat → Bool) (l : List Nat) : Option Nat :=
  (indexFunc p l.reverse).map (fun i => l.length - 1 - i)

/-- Model of Go `bytes.Index` (first occurrence of a subslice). -/
def indexOfSub : List Nat → List Nat → Option Nat
  | l, pat =>
    if List.isPrefixOf pat l then some 0
    else match l with
      | [] => none
      | _ :: t => (indexOfSub t pat).map (· + 1)

/-- Go slice expression `l[a:b]` (only used where `a ≤ b ≤ len l` holds). -/
def goSlice (l : List Nat) (a b : Nat) : List Nat := (l.drop a).take (b - a)

/-!
Scanner layer, translated from scanner.go.  `ScanErr` models the error
values: `eof` is `io.EOF`, `cdataSuffix` is `errCDATASuffix`,
`elementSuffix` is `errElementSuffix`.
-/

inductive ScanErr where
  | eof
  | cdataSuffix
  | elementSuffix
deriving DecidableEq, Repr

/-- Byte string constant from scanner.go. -/
def prefixCDATA : List Nat := strBytes ("<![CDATA[")

/-- Byte string constant from scanner.go. -/
def suffixCDATA : List Nat := strBytes ("]]>")

/-- Scanner reads a byte buffer emitting each token as a slice (scanner.go). -/
structure Scanner where
  buf : List Nat
  pos : Nat
deriving DecidableEq, Repr

/-- Result triple of `Scanner.Next`: `(token, chardata, err)`. -/
structure NextRes where
  token : List Nat
  chardata : Bool
  err : Option ScanErr
deriving DecidableEq, Repr

/-- Translation of `(*Scanner).Next` from scanner.go. -/
def Scanner.Next (s : Scanner) : NextRes × Scanner :=
  if s.pos = s.buf.length then
    (⟨[], false, some .eof⟩, s)
  else if ¬ (s.buf.getD s.pos 0 = byteOf ('<')) then
    match indexByte (s.buf.drop (s.pos + 1)) (byteOf ('<')) with
    | none =>
      if s.pos < s.buf.length then
        (⟨s.buf.drop s.pos, true, none⟩, { s with pos := s.buf.length })
      else
        (⟨[], false, some .eof⟩, s)
    | some n =>
      let next := n + 1
      (⟨goSlice s.buf s.pos (s.pos + next), true, none⟩, { s with pos := s.pos + next })
  else if List.isPrefixOf prefixCDATA (s.buf.drop s.pos) then
    match indexOfSub (s.buf.drop (s.pos + 8)) suffixCDATA with
    | none => (⟨s.buf.drop s.pos, true, some .cdataSuffix⟩, s)
    | some e =>
      let off := e + 11
      (⟨goSlice s.buf s.pos (s.pos + off), true, none⟩, { s with pos := s.pos + off })
  else
    match indexByte (s.buf.drop s.pos) (byteOf ('>')) with
    | none => (⟨s.buf.drop s.pos, false, some .elementSuffix⟩, s)
    | some e =>
      let off := e + 1
      (⟨goSlice s.buf s.pos (s.pos + off), false, none⟩, { s with pos := s.pos + off })

inductive SeekErr where
  | invalidWhence
  | negativePosition
  | pastEnd
deriving DecidableEq, Repr

/-- Result pair of `Scanner.Seek`: the returned int64 and the error. -/
structure SeekRes where
  ret : Int
  err : Option SeekErr
deriving DecidableEq, Repr

/-- Translation of `(*Scanner).Seek` from scanner.go.  `whence` values 0, 1, 2
are `io.SeekStart`, `io.SeekCurrent`, `io.SeekEnd`. -/
def Scanner.Seek (s : Scanner) (offset : Int) (whence : Nat) : SeekRes × Scanner :=
  if whence = 0 ∨ whence = 1 ∨ whence = 2 then
    let abs : Int :=
      if whence = 0 then offset
      else if whence = 1 then (s.pos : Int) + offset
      else (s.buf.length : Int) + offset
    if abs < 0 then
      (⟨(s.pos : Int), some .negativePosition⟩, s)
    else if (s.buf.length : Int) < abs then
      (⟨(s.pos : Int), some .pastEnd⟩, s)
    else
      (⟨abs, none⟩, { s with pos := abs.toNat })
  else
    (⟨(s.pos : Int), some .invalidWhence⟩, s)

/-!
Element classification helpers from element.go, directive.go and the
comment / procinst source files.  `IsProcInst` reads `b[1]` without a length
check in Go; the model uses `getD` with default 0, which matches Go on every
token of length at least 2 (shorter tokens make the Go code panic).
-/

/-- Translation of `IsElement` from element.go. -/
def IsElement (token : List Nat) : Bool :=
  decide (3 ≤ token.length) && (token.getD 0 0 == byteOf ('<'))
    && !(token.getD 1 0 == byteOf ('!')) && !(token.getD 1 0 == byteOf ('?'))

/-- Translation of `IsSelfClosing` from element.go. -/
def IsSelfClosing (token : List Nat) : Bool :=
  if token.length ≤ 2 then false
  else token.getD (token.length - 2) 0 == byteOf ('/')

/-- Translation of `IsEndElement` from element.go. -/
def IsEndElement (token : List Nat) : Bool :=
  decide (2 ≤ token.length) && (token.getD 0 0 == byteOf ('<'))
    && (token.getD 1 0 == byteOf ('/'))

/-- Translation of `IsStartElement` from element.go. -/
def IsStartElement (token : List Nat) : Bool :=
  decide (2 ≤ token.length) && (token.getD 0 0 == byteOf ('<'))
    && !(token.getD 1 0 == byteOf ('/'))

/-- Translation of `IsDirective` from directive.go. -/
def IsDirective (b : List Nat) : Bool :=
  decide (4 ≤ b.length) && (b.getD 0 0 == byteOf ('<')) && (b.getD 1 0 == byteOf ('!'))
    && !(b.getD 2 0 == byteOf ('-')) && !(b.getD 3 0 == byteOf ('-'))

/-- Translation of `IsComment` from the comment source file. -/
def IsComment (token : List Nat) : Bool :=
  decide (4 < token.length) && (token.getD 0 0 == byteOf ('<')) && (token.getD 1 0 == byteOf ('!'))
    && (token.getD 2 0 == byteOf ('-')) && (token.getD 3 0 == byteOf ('-'))

/-- Translation of `IsProcInst` from the procinst source file. -/
def IsProcInst (b : List Nat) : Bool :=
  b.getD 1 0 == byteOf ('?')

/-- Result of `Scanner.Skip`; `outOfFuel` never occurs for the fuel chosen in
`Scanner.Skip` but is needed because the model is fuel-indexed. -/
inductive SkipRes where
  | ok (s : Scanner)
  | err (e : ScanErr)
  | outOfFuel
deriving DecidableEq, Repr

/-- Loop body of `(*Scanner).Skip` from scanner.go, fuel-indexed.  The second
argument is the depth counter; the loop runs while it is positive. -/
def Scanner.SkipLoop : Nat → Nat → Scanner → SkipRes
  | _, 0, s => .ok s
  | 0, _ + 1, _ => .outOfFuel
  | fuel + 1, depth + 1, s =>
    let r := s.Next
    match r.1.err with
    | some e => .err e
    | none =>
      if r.1.chardata || !(IsElement r.1.token) then
        SkipLoop fuel (depth + 1) r.2
      else if IsSelfClosing r.1.token then
        SkipLoop fuel (depth + 1) r.2
      else if IsEndElement r.1.token then
        SkipLoop fuel depth r.2
      else
        SkipLoop fuel (depth + 2) r.2

/-- Translation of `(*Scanner).Skip` from scanner.go: the depth counter starts
at 1.  The fuel bound suffices because every successful `Next` strictly
advances the position. -/
def Scanner.Skip (s : Scanner) : SkipRes :=
  Scanner.SkipLoop (s.buf.length + 1) 1 s

/-- Resolved absolute position of a seek: the `switch whence` in scanner.go. -/
def seekResolve (s : Scanner) (offset : Int) (whence : Nat) : Int :=
  if whence = 0 then offset
  else if whence = 1 then (s.pos : Int) + offset
  else (s.buf.length : Int) + offset

/-- Collect the raw tokens of successive successful `Next` calls, stopping at
end of input; `none` on any scan error (or fuel exhaustion). -/

def scanTokens : Nat → Scanner → Option (List (List Nat))
  | 0, _ => none
  | fuel + 1, s =>
    let r := s.Next
    match r.1.err with
    | some ScanErr.eof => some []
    | some _ => none
    | none => (scanTokens fuel r.2).map (r.1.token :: ·)

/-!
Entity decoding layer, translated from decode.go.  `encodeRune` models
`utf8.EncodeRune` (negative and out-of-range runes encode the replacement
character U+FFFD), `parseInt32` models `strconv.ParseInt(_, base, 32)` as a
partial function (Go distinguishes syntax and range errors, but the caller
only tests `err != nil`, so `none` models any error).  Indexing with `getD`
matches Go exactly wherever the index is in range, which holds in every
reachable state of the loop below.
-/

/-- UTF-8 bytes of an unsigned 32-bit value, following the case analysis of
`utf8.EncodeRune` (out-of-range values and surrogates encode U+FFFD). -/
def utf8Bytes (i : Nat) : List Nat :=
  if i ≤ 0x7F then [i]
  else if i ≤ 0x7FF then [0xC0 + i / 64, 0x80 + i % 64]
  else if 0x10FFFF < i ∨ (0xD800 ≤ i ∧ i ≤ 0xDFFF) then [0xEF, 0xBF, 0xBD]
  else if i ≤ 0xFFFF then [0xE0 + i / 4096, 0x80 + i / 64 % 64, 0x80 + i % 64]
  else [0xF0 + i / 262144, 0x80 + i / 4096 % 64, 0x80 + i / 64 % 64, 0x80 + i % 64]

/-- Model of `utf8.EncodeRune`: the byte sequence written for a rune.  The
first step converts the rune to `uint32` as the Go implementation does. -/
def encodeRune (r : Int) : List Nat :=
  utf8Bytes ((r % 4294967296).toNat)

/-- Value of a digit byte in the given base (bases 10 and 16 are the only
ones used), as accepted by `strconv.ParseUint`. -/
def digitVal (base b : Nat) : Option Nat :=
  if 48 ≤ b ∧ b ≤ 57 ∧ b - 48 < base then some (b - 48)
  else if base = 16 ∧ 97 ≤ b ∧ b ≤ 102 then some (b - 87)
  else if base = 16 ∧ 65 ≤ b ∧ b ≤ 70 then some (b - 55)
  else none

/-- Digit-accumulation loop of `strconv.ParseUint` (accumulated exactly; the
32-bit range check below rejects everything Go rejects). -/
def parseUintLoop (base : Nat) : List Nat → Nat → Option Nat
  | [], acc => some acc
  | b :: t, acc =>
    match digitVal base b with
    | none => none
    | some d => parseUintLoop base t (acc * base + d)

/-- Model of `strconv.ParseInt(s, base, 32)`: `none` models any error. -/
def parseInt32 (s : List Nat) (base : Nat) : Option Int :=
  match s with
  | [] => none
  | b :: t =>
    let signDigits : Bool × List Nat :=
      if b = byteOf ('+') then (false, t)
      else if b = byteOf ('-') then (true, t)
      else (false, s)
    match signDigits.2 with
    | [] => none
    | _ :: _ =>
      match parseUintLoop base signDigits.2 0 with
      | none => none
      | some un =>
        if signDigits.1 then
          if 2147483648 < un then none else some (-(un : Int))
        else
          if 2147483647 < un then none else some (un : Int)

/-- The `xml.HTMLEntity` table from Go's encoding/xml package: entity name
and Unicode code point (every value in that table is a single code point). -/
def htmlEntityTable : List (List Nat × Nat) := [
  (strBytes ("nbsp"), 0xA0), (strBytes ("iexcl"), 0xA1), (strBytes ("cent"), 0xA2),
  (strBytes ("pound"), 0xA3), (strBytes ("curren"), 0xA4), (strBytes ("yen"), 0xA5),
  (strBytes ("brvbar"), 0xA6), (strBytes ("sect"), 0xA7), (strBytes ("uml"), 0xA8),
  (strBytes ("copy"), 0xA9), (strBytes ("ordf"), 0xAA), (strBytes ("laquo"), 0xAB),
  (strBytes ("not"), 0xAC), (strBytes ("shy"), 0xAD), (strBytes ("reg"), 0xAE),
  (strBytes ("macr"), 0xAF), (strBytes ("deg"), 0xB0), (strBytes ("plusmn"), 0xB1),
  (strBytes ("sup2"), 0xB2), (strBytes ("sup3"), 0xB3), (strBytes ("acute"), 0xB4),
  (strBytes ("micro"), 0xB5), (strBytes ("para"), 0xB6), (strBytes ("middot"), 0xB7),
  (strBytes ("cedil"), 0xB8), (strBytes ("sup1"), 0xB9), (strBytes ("ordm"), 0xBA),
  (strBytes ("raquo"), 0xBB), (strBytes ("frac14"), 0xBC), (strBytes ("frac12"), 0xBD),
  (strBytes ("frac34"), 0xBE), (strBytes ("iquest"), 0xBF), (strBytes ("Agrave"), 0xC0),
  (strBytes ("Aacute"), 0xC1), (strBytes ("Acirc"), 0xC2), (strBytes ("Atilde"), 0xC3),
  (strBytes ("Auml"), 0xC4), (strBytes ("Aring"), 0xC5), (strBytes ("AElig"), 0xC6),
  (strBytes ("Ccedil"), 0xC7), (strBytes ("Egrave"), 0xC8), (strBytes ("Eacute"), 0xC9),
  (strBytes ("Ecirc"), 0xCA), (strBytes ("Euml"), 0xCB), (strBytes ("Igrave"), 0xCC),
  (strBytes ("Iacute"), 0xCD), (strBytes ("Icirc"), 0xCE), (strBytes ("Iuml"), 0xCF),
  (strBytes ("ETH"), 0xD0), (strBytes ("Ntilde"), 0xD1), (strBytes ("Ograve"), 0xD2),
  (strBytes ("Oacute"), 0xD3), (strBytes ("Ocirc"), 0xD4), (strBytes ("Otilde"), 0xD5),
  (strBytes ("Ouml"), 0xD6), (strBytes ("times"), 0xD7), (strBytes ("Oslash"), 0xD8),
  (strBytes ("Ugrave"), 0xD9), (strBytes ("Uacute"), 0xDA), (strBytes ("Ucirc"), 0xDB),
  (strBytes ("Uuml"), 0xDC), (strBytes ("Yacute"), 0xDD), (strBytes ("THORN"), 0xDE),
  (strBytes ("szlig"), 0xDF), (strBytes ("agrave"), 0xE0), (strBytes ("aacute"), 0xE1),
  (strBytes ("acirc"), 0xE2), (strBytes ("atilde"), 0xE3), (strBytes ("auml"), 0xE4),
  (strBytes ("aring"), 0xE5), (strBytes ("aelig"), 0xE6), (strBytes ("ccedil"), 0xE7),
  (strBytes ("egrave"), 0xE8), (strBytes ("eacute"), 0xE9), (strBytes ("ecirc"), 0xEA),
  (strBytes ("euml"), 0xEB), (strBytes ("igrave"), 0xEC), (strBytes ("iacute"), 0xED),
  (strBytes ("icirc"), 0xEE), (strBytes ("iuml"), 0xEF), (strBytes ("eth"), 0xF0),
  (strBytes ("ntilde"), 0xF1), (strBytes ("ograve"), 0xF2), (strBytes ("oacute"), 0xF3),
  (strBytes ("ocirc"), 0xF4), (strBytes ("otilde"), 0xF5), (strBytes ("ouml"), 0xF6),
  (strBytes ("divide"), 0xF7), (strBytes ("oslash"), 0xF8), (strBytes ("ugrave"), 0xF9),
  (strBytes ("uacute"), 0xFA), (strBytes ("ucirc"), 0xFB), (strBytes ("uuml"), 0xFC),
  (strBytes ("yacute"), 0xFD), (strBytes ("thorn"), 0xFE), (strBytes ("yuml"), 0xFF),
  (strBytes ("fnof"), 0x192), (strBytes ("Alpha"), 0x391), (strBytes ("Beta"), 0x392),
  (strBytes ("Gamma"), 0x393), (strBytes ("Delta"), 0x394), (strBytes ("Epsilon"), 0x395),
  (strBytes ("Zeta"), 0x396), (strBytes ("Eta"), 0x397), (strBytes ("Theta"), 0x398),
  (strBytes ("Iota"), 0x399), (strBytes ("Kappa"), 0x39A), (strBytes ("Lambda"), 0x39B),
  (strBytes ("Mu"), 0x39C), (strBytes ("Nu"), 0x39D), (strBytes ("Xi"), 0x39E),
  (strBytes ("Omicron"), 0x39F), (strBytes ("Pi"), 0x3A0), (strBytes ("Rho"), 0x3A1),
  (strBytes ("Sigma"), 0x3A3), (strBytes ("Tau"), 0x3A4), (strBytes ("Upsilon"), 0x3A5),
  (strBytes ("Phi"), 0x3A6), (strBytes ("Chi"), 0x3A7), (strBytes ("Psi"), 0x3A8),
  (strBytes ("Omega"), 0x3A9), (strBytes ("alpha"), 0x3B1), (strBytes ("beta"), 0x3B2),
  (strBytes ("gamma"), 0x3B3), (strBytes ("delta"), 0x3B4), (strBytes ("epsilon"), 0x3B5),
  (strBytes ("zeta"), 0x3B6), (strBytes ("eta"), 0x3B7), (strBytes ("theta"), 0x3B8),
  (strBytes ("iota"), 0x3B9), (strBytes ("kappa"), 0x3BA), (strBytes ("lambda"), 0x3BB),
  (strBytes ("mu"), 0x3BC), (strBytes ("nu"), 0x3BD), (strBytes ("xi"), 0x3BE),
  (strBytes ("omicron"), 0x3BF), (strBytes ("pi"), 0x3C0), (strBytes ("rho"), 0x3C1),
  (strBytes ("sigmaf"), 0x3C2), (strBytes ("sigma"), 0x3C3), (strBytes ("tau"), 0x3C4),
  (strBytes ("upsilon"), 0x3C5), (strBytes ("phi"), 0x3C6), (strBytes ("chi"), 0x3C7),
  (strBytes ("psi"), 0x3C8), (strBytes ("omega"), 0x3C9), (strBytes ("thetasym"), 0x3D1),
  (strBytes ("upsih"), 0x3D2), (strBytes ("piv"), 0x3D6), (strBytes ("bull"), 0x2022),
  (strBytes ("hellip"), 0x2026), (strBytes ("prime"), 0x2032), (strBytes ("Prime"), 0x2033),
  (strBytes ("oline"), 0x203E), (strBytes ("frasl"), 0x2044), (strBytes ("weierp"), 0x2118),
  (strBytes ("image"), 0x2111), (strBytes ("real"), 0x211C), (strBytes ("trade"), 0x2122),
  (strBytes ("alefsym"), 0x2135), (strBytes ("larr"), 0x2190), (strBytes ("uarr"), 0x2191),
  (strBytes ("rarr"), 0x2192), (strBytes ("darr"), 0x2193), (strBytes ("harr"), 0x2194),
  (strBytes ("crarr"), 0x21B5), (strBytes ("lArr"), 0x21D0), (strBytes ("uArr"), 0x21D1),
  (strBytes ("rArr"), 0x21D2), (strBytes ("dArr"), 0x21D3), (strBytes ("hArr"), 0x21D4),
  (strBytes ("forall"), 0x2200), (strBytes ("part"), 0x2202), (strBytes ("exist"), 0x2203),
  (strBytes ("empty"), 0x2205), (strBytes ("nabla"), 0x2207), (strBytes ("isin"), 0x2208),
  (strBytes ("notin"), 0x2209), (strBytes ("ni"), 0x220B), (strBytes ("prod"), 0x220F),
  (strBytes ("sum"), 0x2211), (strBytes ("minus"), 0x2212), (strBytes ("lowast"), 0x2217),
  (strBytes ("radic"), 0x221A), (strBytes ("prop"), 0x221D), (strBytes ("infin"), 0x221E),
  (strBytes ("ang"), 0x2220), (strBytes ("and"), 0x2227), (strBytes ("or"), 0x2228),
  (strBytes ("cap"), 0x2229), (strBytes ("cup"), 0x222A), (strBytes ("int"), 0x222B),
  (strBytes ("there4"), 0x2234), (strBytes ("sim"), 0x223C), (strBytes ("cong"), 0x2245),
  (strBytes ("asymp"), 0x2248), (strBytes ("ne"), 0x2260), (strBytes ("equiv"), 0x2261),
  (strBytes ("le"), 0x2264), (strBytes ("ge"), 0x2265), (strBytes ("sub"), 0x2282),
  (strBytes ("sup"), 0x2283), (strBytes ("nsub"), 0x2284), (strBytes ("sube"), 0x2286),
  (strBytes ("supe"), 0x2287), (strBytes ("oplus"), 0x2295), (strBytes ("otimes"), 0x2297),
  (strBytes ("perp"), 0x22A5), (strBytes ("sdot"), 0x22C5), (strBytes ("lceil"), 0x2308),
  (strBytes ("rceil"), 0x2309), (strBytes ("lfloor"), 0x230A), (strBytes ("rfloor"), 0x230B),
  (strBytes ("lang"), 0x2329), (strBytes ("rang"), 0x232A), (strBytes ("loz"), 0x25CA),
  (strBytes ("spades"), 0x2660), (strBytes ("clubs"), 0x2663), (strBytes ("hearts"), 0x2665),
  (strBytes ("diams"), 0x2666), (strBytes ("quot"), 0x22), (strBytes ("amp"), 0x26),
  (strBytes ("lt"), 0x3C), (strBytes ("gt"), 0x3E), (strBytes ("OElig"), 0x152),
  (strBytes ("oelig"), 0x153), (strBytes ("Scaron"), 0x160), (strBytes ("scaron"), 0x161),
  (strBytes ("Yuml"), 0x178), (strBytes ("circ"), 0x2C6), (strBytes ("tilde"), 0x2DC),
  (strBytes ("ensp"), 0x2002), (strBytes ("emsp"), 0x2003), (strBytes ("thinsp"), 0x2009),
  (strBytes ("zwnj"), 0x200C), (strBytes ("zwj"), 0x200D), (strBytes ("lrm"), 0x200E),
  (strBytes ("rlm"), 0x200F), (strBytes ("ndash"), 0x2013), (strBytes ("mdash"), 0x2014),
  (strBytes ("lsquo"), 0x2018), (strBytes ("rsquo"), 0x2019), (strBytes ("sbquo"), 0x201A),
  (strBytes ("ldquo"), 0x201C), (strBytes ("rdquo"), 0x201D), (strBytes ("bdquo"), 0x201E),
  (strBytes ("dagger"), 0x2020), (strBytes ("Dagger"), 0x2021), (strBytes ("permil"), 0x2030),
  (strBytes ("lsaquo"), 0x2039), (strBytes ("rsaquo"), 0x203A), (strBytes ("euro"), 0x20AC)]

/-- Lookup in `xml.HTMLEntity`: the decoded UTF-8 bytes of the entity. -/
def htmlEntityLookup (name : List Nat) : Option (List Nat) :=
  (htmlEntityTable.find? (fun e => e.1 == name)).map (fun e => encodeRune (e.2 : Int))

/-- Errors of the entity decoder.  `panicOOB` models a Go runtime panic
(slice bounds out of range), which is not a returned error value;
`outOfFuel` marks fuel exhaustion of the model and is unreachable for the
fuel used by `DecodeEntities`. -/
inductive DecErr where
  | noSemicolon
  | numParse
  | unknownEntity
  | panicOOB
  | outOfFuel
deriving DecidableEq, Repr

/-- Entity substitution step: the body of the loop of `decodeEntities` in
decode.go for one entity starting at `start` (just past the ampersand) with
its semicolon at relative index `e`.  `scratch` is the accumulated output and
`scap` its Go capacity.  The numeric branch reproduces the capacity test of
decode.go literally: room for `utf8.UTFMax` bytes is made only when
`cap(scratch) >= size+utf8.UTFMax` already holds, and otherwise the slice
expression `scratch[size : size+utf8.UTFMax]` panics (`panicOOB`). -/
def decodeEntityStep (inp : List Nat) (start e : Nat) (scratch : List Nat) (scap : Nat) :
    Except DecErr (List Nat) :=
  if inp.getD start 0 = byteOf ('#') then
    let isHex : Bool := inp.getD (start + 1) 0 == byteOf ('x')
    let base := if isHex then 16 else 10
    let offset := if isHex then start + 2 else start + 1
    match parseInt32 (goSlice inp offset (start + e)) base with
    | none => .error .numParse
    | some num =>
      if scap < scratch.length + 4 then .error .panicOOB
      else .ok (scratch ++ encodeRune num)
  else
    let entity := goSlice inp start (start + e)
    if entity = strBytes ("lt") then .ok (scratch ++ [byteOf ('<')])
    else if entity = strBytes ("gt") then .ok (scratch ++ [byteOf ('>')])
    else if entity = strBytes ("amp") then .ok (scratch ++ [byteOf ('&')])
    else if entity = strBytes ("apos") then .ok (scratch ++ [39])
    else if entity = strBytes ("quot") then .ok (scratch ++ [34])
    else
      match htmlEntityLookup entity with
      | none => .error .unknownEntity
      | some decoded => .ok (scratch ++ decoded)

/-- Loop of `decodeEntities` from decode.go: find the terminating semicolon,
substitute the entity, then jump to the next ampersand (copying the
remaining tail verbatim when there is none). -/
def decodeEntitiesLoop (inp : List Nat) :
    Nat → Nat → List Nat → Nat → Except DecErr (List Nat)
  | 0, _, _, _ => .error .outOfFuel
  | fuel + 1, start, scratch, scap =>
    match indexByte (inp.drop start) (byteOf (';')) with
    | none => .error .noSemicolon
    | some e =>
      match decodeEntityStep inp start e scratch scap with
      | .error err => .error err
      | .ok scratch1 =>
        match indexByte (inp.drop (start + e)) (byteOf ('&')) with
        | none => .ok (scratch1 ++ inp.drop (start + e + 1))
        | some idx =>
          decodeEntitiesLoop inp fuel (start + e + idx + 1) scratch1 (max scap scratch1.length)

/-- Translation of `decodeEntities` from decode.go (scratch data plus its Go
capacity). -/
def decodeEntities (scratch : List Nat) (scap : Nat) (inp : List Nat) (start : Nat) :
    Except DecErr (List Nat) :=
  let scratch1 := scratch ++ inp.take start
  decodeEntitiesLoop inp (inp.length + 1) (start + 1) scratch1 (max scap scratch1.length)

/-- Translation of `DecodeEntities` from decode.go.  `scratch = none` models
a nil scratch slice, for which a fresh buffer with capacity `len(in)` is
allocated; `some (data, cap)` models a caller-supplied slice. -/
def DecodeEntities (inp : List Nat) (scratch : Option (List Nat × Nat)) :
    Except DecErr (List Nat) :=
  match indexByte inp (byteOf ('&')) with
  | none => .ok inp
  | some start =>
    match scratch with
    | none => decodeEntities [] inp.length inp start
    | some sc => decodeEntities sc.1 sc.2 inp start

instance {ε α : Type} [DecidableEq ε] [DecidableEq α] : DecidableEq (Except ε α)
  | .ok a, .ok b =>
    if h : a = b then .isTrue (by rw [h]) else .isFalse (fun hh => h (Except.ok.inj hh))
  | .ok _, .error _ => .isFalse (fun hh => Except.noConfusion hh)
  | .error _, .ok _ => .isFalse (fun hh => Except.noConfusion hh)
  | .error a, .error b =>
    if h : a = b then .isTrue (by rw [h]) else .isFalse (fun hh => h (Except.error.inj hh))

/-- Translation of `CharData` from the chardata source file: a token
delimited by the CDATA markers is returned verbatim (the slice
`token[9 : len(token)-3]`), anything else goes through `DecodeEntities`. -/
def CharData (charToken : List Nat) (scratch : Option (List Nat × Nat)) :
    Except DecErr (List Nat) :=
  if List.isPrefixOf prefixCDATA charToken ∧ List.isSuffixOf suffixCDATA charToken then
    .ok (goSlice charToken 9 (charToken.length - 3))
  else
    DecodeEntities charToken scratch

/-!
Attribute iteration, translated from element.go.  Go's `bytes.IndexFunc`,
`bytes.LastIndexFunc` and `unicode.IsSpace` are rune-based, so the model
decodes UTF-8: `decodeRune` / `decodeLastRune` model `utf8.DecodeRune` /
`utf8.DecodeLastRune`, and `bytesIndexFunc` / `bytesLastIndexFunc` model
the two search functions, returning the start byte index of the matching
rune.  The byte-level `indexFunc` / `lastIndexFunc` above are proof-side
helpers that coincide with the rune-based searches on ASCII input (bridge
lemmas below).  The Go callback mutates captured state and returns a
continue/stop bool; it is modelled by explicit state threading.  34 is the
byte value of the double-quote character.
-/

/-- The ASCII part of `unicode.IsSpace` (used by the well-formedness
predicate and by the ASCII fast path of `bytes.TrimSpace`). -/
def isSpaceByte (b : Nat) : Bool :=
  b == 9 || b == 10 || b == 11 || b == 12 || b == 13 || b == 32

/-- Model of `unicode.IsSpace` on a code point: the Unicode White_Space
property, exactly the ranges tested by Go. -/
def isSpaceRune (r : Nat) : Bool :=
  r == 9 || r == 10 || r == 11 || r == 12 || r == 13 || r == 32 ||
  r == 0x85 || r == 0xA0 || r == 0x1680 ||
  decide (0x2000 ≤ r ∧ r ≤ 0x200A) ||
  r == 0x2028 || r == 0x2029 || r == 0x202F || r == 0x205F || r == 0x3000

/-- Translation of `notSpace` from element.go (a rune predicate). -/
def notSpace (r : Nat) : Bool := ! isSpaceRune r

/-- Model of `utf8.DecodeRune`: code point and width of the first rune,
with Go's exact acceptance ranges; invalid or incomplete encodings give
the replacement rune U+FFFD with width 1 (width 0 on empty input). -/
def decodeRune (s : List Nat) : Nat × Nat :=
  match s with
  | [] => (0xFFFD, 0)
  | b0 :: rest =>
    if b0 < 0x80 then (b0, 1)
    else if b0 < 0xC2 then (0xFFFD, 1)
    else if b0 ≤ 0xDF then
      match rest with
      | b1 :: _ =>
        if 0x80 ≤ b1 ∧ b1 ≤ 0xBF then ((b0 - 0xC0) * 64 + (b1 - 0x80), 2)
        else (0xFFFD, 1)
      | [] => (0xFFFD, 1)
    else if b0 ≤ 0xEF then
      match rest with
      | b1 :: b2 :: _ =>
        if (if b0 = 0xE0 then 0xA0 else 0x80) ≤ b1 ∧
            b1 ≤ (if b0 = 0xED then 0x9F else 0xBF) ∧
            0x80 ≤ b2 ∧ b2 ≤ 0xBF then
          ((b0 - 0xE0) * 4096 + (b1 - 0x80) * 64 + (b2 - 0x80), 3)
        else (0xFFFD, 1)
      | _ => (0xFFFD, 1)
    else if b0 ≤ 0xF4 then
      match rest with
      | b1 :: b2 :: b3 :: _ =>
        if (if b0 = 0xF0 then 0x90 else 0x80) ≤ b1 ∧
            b1 ≤ (if b0 = 0xF4 then 0x8F else 0xBF) ∧
            0x80 ≤ b2 ∧ b2 ≤ 0xBF ∧ 0x80 ≤ b3 ∧ b3 ≤ 0xBF then
          ((b0 - 0xF0) * 262144 + (b1 - 0x80) * 4096 + (b2 - 0x80) * 64 + (b3 - 0x80), 4)
        else (0xFFFD, 1)
      | _ => (0xFFFD, 1)
    else (0xFFFD, 1)

/-- `utf8.RuneStart`: a byte that is not a continuation byte. -/
def runeStart (b : Nat) : Bool := ! decide (0x80 ≤ b ∧ b ≤ 0xBF)

/-- Model of `utf8.DecodeLastRune`: the backward scan of at most
`utf8.UTFMax` bytes for a rune start is unrolled (it inspects at most the
three positions above the limit), with Go's clamping of a negative start
to 0 and its size-mismatch check. -/
def decodeLastRune (s : List Nat) : Nat × Nat :=
  if s.length = 0 then (0xFFFD, 0)
  else
    let last := s.getD (s.length - 1) 0
    if last < 0x80 then (last, 1)
    else
      let e : Int := s.length
      let lim : Int := max (e - 4) 0
      let p1 : Int := e - 2
      let start : Int :=
        if p1 ≥ lim ∧ runeStart (s.getD p1.toNat 0) then p1
        else if p1 - 1 ≥ lim ∧ runeStart (s.getD (p1 - 1).toNat 0) then p1 - 1
        else if p1 - 2 ≥ lim ∧ runeStart (s.getD (p1 - 2).toNat 0) then p1 - 2
        else lim - 1
      let start := if start < 0 then 0 else start
      let rs := decodeRune (s.drop start.toNat)
      if start.toNat + rs.2 ≠ s.length then (0xFFFD, 1) else rs

/-- Model of `bytes.IndexFunc` (relative form): the start byte index of the
first rune satisfying the predicate, decoding UTF-8 exactly as Go does
(an ASCII byte is passed to the predicate directly), fuel-indexed. -/
def bytesIndexFuncAux (p : Nat → Bool) : Nat → List Nat → Option Nat
  | 0, _ => none
  | _ + 1, [] => none
  | fuel + 1, b :: rest =>
    if b < 0x80 then
      if p b then some 0 else (bytesIndexFuncAux p fuel rest).map (· + 1)
    else
      let rs := decodeRune (b :: rest)
      if p rs.1 then some 0
      else (bytesIndexFuncAux p fuel ((b :: rest).drop rs.2)).map (· + rs.2)

/-- Model of `bytes.IndexFunc`. -/
def bytesIndexFunc (p : Nat → Bool) (s : List Nat) : Option Nat :=
  bytesIndexFuncAux p (s.length + 1) s

/-- Model of `bytes.LastIndexFunc` (loop on the end index `i`): the start
byte index of the last rune satisfying the predicate, decoding backwards
with `decodeLastRune` exactly as Go does, fuel-indexed. -/
def bytesLastIndexFuncAux (p : Nat → Bool) (s : List Nat) : Nat → Nat → Option Nat
  | 0, _ => none
  | fuel + 1, i =>
    if i = 0 then none
    else
      let b := s.getD (i - 1) 0
      if b < 0x80 then
        if p b then some (i - 1) else bytesLastIndexFuncAux p s fuel (i - 1)
      else
        let rs := decodeLastRune (s.take i)
        if p rs.1 then some (i - rs.2) else bytesLastIndexFuncAux p s fuel (i - rs.2)

/-- Model of `bytes.LastIndexFunc`. -/
def bytesLastIndexFunc (p : Nat → Bool) (s : List Nat) : Option Nat :=
  bytesLastIndexFuncAux p s (s.length + 1) s.length

/-- Errors of `RawAttrs`: `keyWhitespace` is `errAttrKeyWhitespace`,
`startQuote` is `errAttrPrefix`, `endQuote` is `errAttrSuffix`,
`trailingData` is the trailing non-whitespace error; `outOfFuel` marks fuel
exhaustion of the model and is unreachable for the fuel used by
`RawAttrs`. -/
inductive AttrErr where
  | keyWhitespace
  | startQuote
  | endQuote
  | trailingData
  | outOfFuel
deriving DecidableEq, Repr

/-- Loop of `RawAttrs` from element.go, fuel-indexed, with the callback
state threaded explicitly. -/
def RawAttrsLoop {σ : Type} (attrsToken : List Nat)
    (f : σ → Nat → Nat → Nat → Nat → σ × Bool) :
    Nat → Nat → σ → Except AttrErr σ
  | 0, _, _ => .error .outOfFuel
  | fuel + 1, offset, st =>
    if offset < attrsToken.length then
      match indexByte (attrsToken.drop offset) (byteOf ('=')) with
      | none =>
        match bytesIndexFunc notSpace (attrsToken.drop offset) with
        | none => .ok st
        | some _ => .error .trailingData
      | some eq0 =>
        let equals := eq0 + offset
        match bytesIndexFunc notSpace (goSlice attrsToken offset equals) with
        | none => .error .keyWhitespace
        | some idx =>
          let keyStart := if 0 < idx then offset + idx else offset
          let keyEnd :=
            match bytesLastIndexFunc notSpace (goSlice attrsToken keyStart equals) with
            | some idx2 => if 0 < idx2 then keyStart + idx2 + 1 else keyStart
            | none => keyStart
          let equals1 := equals + 1
          match indexByte (attrsToken.drop equals1) 34 with
          | none => .error .startQuote
          | some v0 =>
            let valueStart := v0 + equals1 + 1
            match indexByte (attrsToken.drop valueStart) 34 with
            | none => .error .endQuote
            | some v1 =>
              let valueEnd := v1 + valueStart
              let fr := f st keyStart keyEnd valueStart valueEnd
              if fr.2 then RawAttrsLoop attrsToken f fuel (valueEnd + 1) fr.1
              else .ok fr.1
    else
      match bytesIndexFunc notSpace (attrsToken.drop offset) with
      | none => .ok st
      | some _ => .error .trailingData

/-- Translation of `RawAttrs` from element.go. -/
def RawAttrs {σ : Type} (attrsToken : List Nat)
    (f : σ → Nat → Nat → Nat → Nat → σ × Bool) (st : σ) : Except AttrErr σ :=
  RawAttrsLoop attrsToken f (attrsToken.length + 1) 0 st

/-- Translation of `Attrs` from element.go with a callback that records
every (key, value) slice pair and always continues. -/
def AttrsList (attrsToken : List Nat) : Except AttrErr (List (List Nat × List Nat)) :=
  RawAttrs attrsToken
    (fun acc ks ke vs ve => (acc ++ [(goSlice attrsToken ks ke, goSlice attrsToken vs ve)], true))
    []

/-- A well-formed attribute pair: leading whitespace, key, whitespace, the
equals sign, whitespace, then the double-quoted value.  (The ASCII key
restriction of `WFPair` is part of the amended claim: `RawAttrs` computes
the key end from the start byte of the last rune, so non-ASCII keys come
back empty or truncated.) -/
structure AttrPair where
  ws1 : List Nat
  key : List Nat
  ws2 : List Nat
  ws3 : List Nat
  value : List Nat

/-- The bytes of one well-formed pair. -/
def renderPair (p : AttrPair) : List Nat :=
  p.ws1 ++ p.key ++ p.ws2 ++ [byteOf ('=')] ++ p.ws3 ++ [34] ++ p.value ++ [34]

/-- The bytes of a well-formed attributes span. -/
def renderAttrs (ps : List AttrPair) (trail : List Nat) : List Nat :=
  (ps.map renderPair).flatten ++ trail

/-- Well-formedness of one pair, matching the amended claim: an ASCII key
of at least two bytes containing no whitespace, no equals sign and no
quote; whitespace runs of ASCII whitespace bytes; a value free of quote
bytes. -/
def WFPair (p : AttrPair) : Prop :=
  2 ≤ p.key.length ∧
  (∀ b ∈ p.key, isSpaceByte b = false ∧ b ≠ byteOf ('=') ∧ b ≠ 34 ∧ b < 128) ∧
  (∀ b ∈ p.ws1, isSpaceByte b = true) ∧
  (∀ b ∈ p.ws2, isSpaceByte b = true) ∧
  (∀ b ∈ p.ws3, isSpaceByte b = true) ∧
  (∀ b ∈ p.value, b ≠ 34)

instance (p : AttrPair) : Decidable (WFPair p) := by
  unfold WFPair
  exact inferInstance

/-!
Structured decoder, translated from the decoder source file (the revision
with `Decoder.RawToken`) and its token definitions.  It lives in its own
namespace because this revision redefines the CDATA markers (`[CDATA[`
without the leading `<!`).  `Decoder.next` is the stored result of
`bytes.IndexByte`, which can be `-1`, hence an `Int`.
-/

namespace Dec

/-- An XML name: namespace prefix and local part (token source file). -/
structure Name where
  Space : List Nat
  Local : List Nat
deriving DecidableEq, Repr

/-- An attribute (token source file). -/
structure Attr where
  Name : Name
  Value : List Nat
deriving DecidableEq, Repr

/-- An XML start element (token source file). -/
structure StartElement where
  Name : Name
  Attr : List Attr
deriving DecidableEq, Repr

/-- An XML end element (token source file). -/
structure EndElement where
  Name : Name
deriving DecidableEq, Repr

/-- `StartElement.End` from the token source file. -/
def StartElement.End (e : StartElement) : EndElement := ⟨e.Name⟩

/-- The closed union of token kinds (token source file). -/
inductive Token where
  | startElement (e : StartElement)
  | endElement (e : EndElement)
  | cdata (data : List Nat)
  | charData (data : List Nat)
  | comment (data : List Nat)
  | procInst (target inst : List Nat)
  | directive (data : List Nat)
deriving DecidableEq, Repr

/-- Errors of the decoder: `eof` is `io.EOF`, `tooShort` the
not-enough-bytes error, the rest the parse errors; `panicIndex` models the
Go runtime panic of `buf[end-1]` when the closing angle bracket is the very
first byte, and `outOfFuel` marks fuel exhaustion of the attribute-loop
model (unreachable for the fuel used). -/
inductive DecodeErr where
  | eof
  | tooShort
  | procInstSpace
  | procInstEnd
  | cdataEnd
  | commentEnd
  | directiveEnd
  | elementEnd
  | attrStartQuote
  | attrEndQuote
  | attrUnexpected
  | panicIndex
  | outOfFuel
deriving DecidableEq, Repr

/-- `parseName` from the decoder source file: split on the first colon. -/
def parseName (buf : List Nat) : Name :=
  match indexByte buf (byteOf (':')) with
  | some idx => ⟨buf.take idx, buf.drop (idx + 1)⟩
  | none => ⟨[], buf⟩

/-- `parseProcInst` from the decoder source file. -/
def parseProcInst (buf : List Nat) : Except DecodeErr (Token × Nat) :=
  match indexByte buf 32 with
  | none => .error .procInstSpace
  | some space =>
    match indexOfSub (buf.drop space) (strBytes ("?>")) with
    | none => .error .procInstEnd
    | some e =>
      .ok (.procInst (buf.take space) (goSlice buf (space + 1) (e + space)), e + space + 2)

/-- `parsePotentialDirective` from the decoder source file. -/
def parsePotentialDirective (buf : List Nat) : Except DecodeErr (Token × Nat) :=
  if List.isPrefixOf (strBytes ("[CDATA[")) buf then
    match indexOfSub buf (strBytes ("]]>")) with
    | none => .error .cdataEnd
    | some e => .ok (.cdata (goSlice buf 7 e), e + 3)
  else if List.isPrefixOf (strBytes ("--")) buf then
    match indexOfSub buf (strBytes ("-->")) with
    | none => .error .commentEnd
    | some e => .ok (.comment (goSlice buf 2 e), e + 3)
  else
    match indexByte buf (byteOf ('>')) with
    | none => .error .directiveEnd
    | some e => .ok (.directive (buf.take e), e + 1)

/-- Byte-level `bytes.TrimSpace` (exact on ASCII input). -/
def trimSpaceBytes (l : List Nat) : List Nat :=
  ((l.dropWhile isSpaceByte).reverse.dropWhile isSpaceByte).reverse

/-- Attribute loop of `parseElement` from the decoder source file,
fuel-indexed.  `stop` is the index of the (possibly adjusted) closing angle
bracket bounding every search. -/
def parseAttrsLoop (buf : List Nat) (stop : Nat) :
    Nat → Nat → List Attr → Except DecodeErr (List Attr × Nat)
  | 0, _, _ => .error .outOfFuel
  | fuel + 1, cursor, acc =>
    match indexByte (goSlice buf cursor stop) (byteOf ('=')) with
    | none => .ok (acc, cursor)
    | some equal =>
      let name := parseName (trimSpaceBytes (goSlice buf cursor (cursor + equal)))
      let cursor1 := cursor + equal
      match indexByte (goSlice buf cursor1 stop) 34 with
      | none => .error .attrStartQuote
      | some qs =>
        let cursor2 := cursor1 + qs + 1
        match indexByte (goSlice buf cursor2 stop) 34 with
        | none => .error .attrEndQuote
        | some qe =>
          parseAttrsLoop buf stop fuel (cursor2 + qe + 1)
            (acc ++ [⟨name, goSlice buf cursor2 (cursor2 + qe)⟩])

/-- `parseElement` from the decoder source file.  The boolean of the result
is the self-closing flag.  When the closing angle bracket is the first byte
the Go code indexes `buf[-1]`, modelled by `panicIndex`. -/
def parseElement (buf : List Nat) : Except DecodeErr (StartElement × Nat × Bool) :=
  match indexByte buf (byteOf ('>')) with
  | none => .error .elementEnd
  | some e =>
    if e = 0 then .error .panicIndex
    else
      let offset := e + 1
      let closing := buf.getD (e - 1) 0 == byteOf ('/')
      let stop := if closing then e - 1 else e
      match indexByte (buf.take stop) 32 with
      | none => .ok (⟨parseName (buf.take stop), []⟩, offset, closing)
      | some space =>
        match parseAttrsLoop buf stop (buf.length + 1) (space + 1) [] with
        | .error err => .error err
        | .ok (attrs, cursor) =>
          match indexFunc (fun b => ! (b == 32)) (goSlice buf cursor stop) with
          | some _ => .error .attrUnexpected
          | none => .ok (⟨parseName (buf.take space), attrs⟩, offset, closing)

/-- `Decoder` from the decoder source file. -/
structure Decoder where
  buf : List Nat
  cursor : Nat
  next : Int
  nextToken : Option EndElement
deriving DecidableEq, Repr

/-- The pre-emptive search for the next angle bracket at the end of
`RawToken`: the new value of `Decoder.next`. -/
def nextLT (buf : List Nat) (c : Nat) : Int :=
  match indexByte (buf.drop c) (byteOf ('<')) with
  | none => (buf.length : Int)
  | some n => ((c + n : Nat) : Int)

/-- `Decoder.RawToken` from the decoder source file. -/
def Decoder.RawToken (d : Decoder) : Except DecodeErr Token × Decoder :=
  match d.nextToken with
  | some token => (.ok (.endElement token), { d with nextToken := none })
  | none =>
    if d.buf.length ≤ d.cursor then (.error .eof, d)
    else if (d.cursor : Int) < d.next then
      (.ok (.charData (goSlice d.buf d.cursor d.next.toNat)),
       { d with cursor := d.next.toNat })
    else
      let c1 := d.cursor + 1
      if d.buf.length - c1 < 2 then (.error .tooShort, { d with cursor := c1 })
      else if d.buf.getD c1 0 = byteOf ('?') then
        let c2 := c1 + 1
        match parseProcInst (d.buf.drop c2) with
        | .error e => (.error e, { d with cursor := c2 })
        | .ok td =>
          (.ok td.1, { d with cursor := c2 + td.2, next := nextLT d.buf (c2 + td.2) })
      else if d.buf.getD c1 0 = byteOf ('!') then
        let c2 := c1 + 1
        match parsePotentialDirective (d.buf.drop c2) with
        | .error e => (.error e, { d with cursor := c2 })
        | .ok td =>
          (.ok td.1, { d with cursor := c2 + td.2, next := nextLT d.buf (c2 + td.2) })
      else
        match parseElement (d.buf.drop c1) with
        | .error e => (.error e, { d with cursor := c1 })
        | .ok sec =>
          (.ok (.startElement sec.1),
           { d with cursor := c1 + sec.2.1, next := nextLT d.buf (c1 + sec.2.1),
                    nextToken := if sec.2.2 then some (StartElement.End sec.1) else none })

/-- `NewDecoder` from the decoder source file (`next` is the raw
`bytes.IndexByte` result, `-1` included). -/
def NewDecoder (bs : List Nat) : Decoder :=
  { buf := bs, cursor := 0,
    next := match indexByte bs (byteOf ('<')) with
            | none => (-1 : Int)
            | some n => (n : Int),
    nextToken := none }

end Dec

theorem indexByte_lt_length {l : List Nat} {c n : Nat}
    (h : indexByte l c = some n) : n < l.length := by
  induction l generalizing n with
  | nil => simp [indexByte] at h
  | cons b t ih =>
    simp only [indexByte] at h
    split at h
    · rcases Option.some_inj.mp h with rfl
      simp
    · rcases Option.map_eq_some'.mp h with ⟨m, hm, rfl⟩
      have := ih hm
      simp only [List.length_cons]
      omega

theorem indexByte_getD {l : List Nat} {c n : Nat}
    (h : indexByte l c = some n) : l.getD n 0 = c := by
  induction l generalizing n with
  | nil => simp [indexByte] at h
  | cons b t ih =>
    simp only [indexByte] at h
    split at h
    next hb =>
      rcases Option.some_inj.mp h with rfl
      simpa using hb
    · rcases Option.map_eq_some'.mp h with ⟨m, hm, rfl⟩
      simpa using ih hm

theorem indexByte_getD_lt {l : List Nat} {c n : Nat}
    (h : indexByte l c = some n) {i : Nat} (hi : i < n) : l.getD i 0 ≠ c := by
  induction l generalizing n i with
  | nil => simp [indexByte] at h
  | cons b t ih =>
    simp only [indexByte] at h
    split at h
    · rcases Option.some_inj.mp h with rfl
      omega
    next hb =>
      rcases Option.map_eq_some'.mp h with ⟨m, hm, rfl⟩
      cases i with
      | zero => simpa using hb
      | succ j => simpa using ih hm (by omega)

theorem indexByte_none_not_mem {l : List Nat} {c : Nat}
    (h : indexByte l c = none) : c ∉ l := by
  induction l with
  | nil => simp
  | cons b t ih =>
    simp only [indexByte] at h
    split at h
    · simp at h
    next hb =>
      have := ih (Option.map_eq_none'.mp h)
      simp only [List.mem_cons, not_or]
      exact ⟨fun hh => hb hh.symm, this⟩

theorem indexByte_append_of_not_mem :
    ∀ {a : List Nat} {c : Nat}, c ∉ a → ∀ b : List Nat,
      indexByte (a ++ b) c = (indexByte b c).map (· + a.length)
  | [], c, _, b => by cases hb : indexByte b c <;> simp [hb]
  | x :: t, c, h, b => by
    have hx : ¬ (x = c) := fun hh => h (by simp [hh])
    have ht : c ∉ t := fun hh => h (by simp [hh])
    show (if x = c then some 0 else (indexByte (t ++ b) c).map (· + 1)) = _
    rw [if_neg hx, indexByte_append_of_not_mem ht b]
    cases hb : indexByte b c <;> simp [Nat.add_assoc]

theorem indexByte_cons_self (c : Nat) (t : List Nat) :
    indexByte (c :: t) c = some 0 := by simp [indexByte]

theorem indexFunc_lt_length {p : Nat → Bool} {l : List Nat} {n : Nat}
    (h : indexFunc p l = some n) : n < l.length := by
  induction l generalizing n with
  | nil => simp [indexFunc] at h
  | cons b t ih =>
    simp only [indexFunc] at h
    split at h
    · rcases Option.some_inj.mp h with rfl
      simp
    · rcases Option.map_eq_some'.mp h with ⟨m, hm, rfl⟩
      have := ih hm
      simp only [List.length_cons]
      omega

theorem indexFunc_none_iff {p : Nat → Bool} {l : List Nat} :
    indexFunc p l = none ↔ ∀ x ∈ l, ¬ p x := by
  induction l with
  | nil => simp [indexFunc]
  | cons b t ih =>
    by_cases hb : p b
    · simp [indexFunc, hb]
    · simp [indexFunc, hb, ih]

theorem indexFunc_append_of_none {p : Nat → Bool} :
    ∀ {a : List Nat}, (∀ x ∈ a, ¬ p x) → ∀ b : List Nat,
      indexFunc p (a ++ b) = (indexFunc p b).map (· + a.length)
  | [], _, b => by cases hb : indexFunc p b <;> simp [hb]
  | x :: t, h, b => by
    have hx : ¬ (p x = true) := h x (by simp)
    have ht : ∀ y ∈ t, ¬ p y := fun y hy => h y (by simp [hy])
    show (if p x = true then some 0 else (indexFunc p (t ++ b)).map (· + 1)) = _
    rw [if_neg hx, indexFunc_append_of_none ht b]
    cases hb : indexFunc p b <;> simp [Nat.add_assoc]

theorem indexFunc_cons_of_pos {p : Nat → Bool} {c : Nat} (h : p c) (t : List Nat) :
    indexFunc p (c :: t) = some 0 := by simp [indexFunc, h]

theorem indexOfSub_le_length {l pat : List Nat} {n : Nat}
    (h : indexOfSub l pat = some n) : n + pat.length ≤ l.length := by
  induction l generalizing n with
  | nil =>
    rw [indexOfSub] at h
    split at h
    next hp =>
      rcases Option.some_inj.mp h with rfl
      simpa using List.IsPrefix.length_le (List.isPrefixOf_iff_prefix.mp hp)
    · simp at h
  | cons b t ih =>
    rw [indexOfSub] at h
    split at h
    next hp =>
      rcases Option.some_inj.mp h with rfl
      simpa using List.IsPrefix.length_le (List.isPrefixOf_iff_prefix.mp hp)
    · rcases Option.map_eq_some'.mp h with ⟨m, hm, rfl⟩
      have := ih hm
      simp only [List.length_cons]
      omega

theorem indexOfSub_isPrefix {l pat : List Nat} {n : Nat}
    (h : indexOfSub l pat = some n) : pat <+: l.drop n := by
  induction l generalizing n with
  | nil =>
    rw [indexOfSub] at h
    split at h
    next hp =>
      rcases Option.some_inj.mp h with rfl
      simpa using List.isPrefixOf_iff_prefix.mp hp
    · simp at h
  | cons b t ih =>
    rw [indexOfSub] at h
    split at h
    next hp =>
      rcases Option.some_inj.mp h with rfl
      simpa using List.isPrefixOf_iff_prefix.mp hp
    · rcases Option.map_eq_some'.mp h with ⟨m, hm, rfl⟩
      simpa using ih hm

/-- C7: whenever `Scanner.Next` fails (no closing marker for a tag or a CDATA
section), the returned token is the entire remaining buffer from the current
offset, the error is returned alongside it, and the scanner offset (and
buffer) are unchanged by the failing call. -/
theorem next_error_returns_rest_and_keeps_pos (s : Scanner) (r : NextRes) (s' : Scanner)
    (h : s.Next = (r, s'))
    (he : r.err = some ScanErr.cdataSuffix ∨ r.err = some ScanErr.elementSuffix) :
    r.token = s.buf.drop s.pos ∧ s'.pos = s.pos ∧ s'.buf = s.buf := by
  unfold Scanner.Next at h
  split at h
  · injection h with h1 h2
    subst h1
    subst h2
    simp at he
  · split at h
    · split at h
      · split at h
        · injection h with h1 h2
          subst h1
          subst h2
          simp at he
        · injection h with h1 h2
          subst h1
          subst h2
          simp at he
      · injection h with h1 h2
        subst h1
        subst h2
        simp at he
    · split at h
      · split at h
        · injection h with h1 h2
          subst h1
          subst h2
          exact ⟨rfl, rfl, rfl⟩
        · injection h with h1 h2
          subst h1
          subst h2
          simp at he
      · split at h
        · injection h with h1 h2
          subst h1
          subst h2
          exact ⟨rfl, rfl, rfl⟩
        · injection h with h1 h2
          subst h1
          subst h2
          simp at he

/-- Witness for the C7 theorem at the concrete input `<a` (a tag with no
closing marker). -/
theorem next_error_returns_rest_and_keeps_pos_witness :
    (Scanner.Next ⟨strBytes ("<a"), 0⟩).1.token = (strBytes ("<a")).drop 0 ∧
    (Scanner.Next ⟨strBytes ("<a"), 0⟩).2.pos = 0 ∧
    (Scanner.Next ⟨strBytes ("<a"), 0⟩).2.buf = strBytes ("<a") :=
  next_error_returns_rest_and_keeps_pos ⟨strBytes ("<a"), 0⟩ _ _ rfl (by decide)

/-- C8: with a valid origin, `Scanner.Seek` fails with the negative-position
error exactly on a resolved position below 0 and with the past-end error on a
resolved position beyond the buffer length, leaving the cursor unchanged in
both cases; on success the cursor becomes exactly the resolved position. -/
theorem seek_spec (s : Scanner) (offset : Int) (whence : Nat) (hw : whence < 3) :
    (seekResolve s offset whence < 0 →
      s.Seek offset whence = (⟨(s.pos : Int), some SeekErr.negativePosition⟩, s)) ∧
    ((s.buf.length : Int) < seekResolve s offset whence →
      s.Seek offset whence = (⟨(s.pos : Int), some SeekErr.pastEnd⟩, s)) ∧
    (0 ≤ seekResolve s offset whence → seekResolve s offset whence ≤ (s.buf.length : Int) →
      s.Seek offset whence =
        (⟨seekResolve s offset whence, none⟩, ⟨s.buf, (seekResolve s offset whence).toNat⟩)) := by
  have hcond : whence = 0 ∨ whence = 1 ∨ whence = 2 := by omega
  refine ⟨?_, ?_, ?_⟩
  · intro hneg
    unfold Scanner.Seek
    rw [if_pos hcond]
    simp only []
    rw [show (if whence = 0 then offset
      else if whence = 1 then (s.pos : Int) + offset
      else (s.buf.length : Int) + offset) = seekResolve s offset whence from rfl]
    rw [if_pos hneg]
  · intro hpast
    have hnn : ¬ (seekResolve s offset whence < 0) := by
      have : (0 : Int) ≤ (s.buf.length : Int) := by positivity
      omega
    unfold Scanner.Seek
    rw [if_pos hcond]
    simp only []
    rw [show (if whence = 0 then offset
      else if whence = 1 then (s.pos : Int) + offset
      else (s.buf.length : Int) + offset) = seekResolve s offset whence from rfl]
    rw [if_neg hnn, if_pos hpast]
  · intro h0 hle
    have hnn : ¬ (seekResolve s offset whence < 0) := by omega
    have hnp : ¬ ((s.buf.length : Int) < seekResolve s offset whence) := by omega
    unfold Scanner.Seek
    rw [if_pos hcond]
    simp only []
    rw [show (if whence = 0 then offset
      else if whence = 1 then (s.pos : Int) + offset
      else (s.buf.length : Int) + offset) = seekResolve s offset whence from rfl]
    rw [if_neg hnn, if_neg hnp]

/-- Witness for the C8 theorem: a past-end seek, a negative seek and a
successful seek on the two-byte buffer `ab`. -/
theorem seek_spec_witness :
    Scanner.Seek ⟨strBytes ("ab"), 1⟩ 5 2 = (⟨(1 : Int), some SeekErr.pastEnd⟩, ⟨strBytes ("ab"), 1⟩) ∧
    Scanner.Seek ⟨strBytes ("ab"), 1⟩ (-3) 1 = (⟨(1 : Int), some SeekErr.negativePosition⟩, ⟨strBytes ("ab"), 1⟩) ∧
    Scanner.Seek ⟨strBytes ("ab"), 1⟩ 2 0 = (⟨(2 : Int), none⟩, ⟨strBytes ("ab"), 2⟩) :=
  ⟨(seek_spec ⟨strBytes ("ab"), 1⟩ 5 2 (by decide)).2.1 (by decide),
   (seek_spec ⟨strBytes ("ab"), 1⟩ (-3) 1 (by decide)).1 (by decide),
   (seek_spec ⟨strBytes ("ab"), 1⟩ 2 0 (by decide)).2.2 (by decide) (by decide)⟩

/-- On a successful (error-free) call, `Scanner.Next` returns exactly the
contiguous slice of the buffer between the old and new offsets, the new offset
is strictly larger and still within bounds, the token is non-empty and the
buffer itself is untouched. -/
theorem next_ok_step (s : Scanner) (r : NextRes) (s' : Scanner)
    (hpos : s.pos ≤ s.buf.length) (h : s.Next = (r, s')) (he : r.err = none) :
    r.token = goSlice s.buf s.pos s'.pos ∧ s.pos < s'.pos ∧ s'.pos ≤ s.buf.length ∧
    r.token ≠ [] ∧ s'.buf = s.buf := by
  unfold Scanner.Next at h
  by_cases h0 : s.pos = s.buf.length
  · rw [if_pos h0] at h
    injection h with h1 h2
    subst h1
    simp at he
  rw [if_neg h0] at h
  have hlt : s.pos < s.buf.length := by omega
  by_cases h1 : ¬ (s.buf.getD s.pos 0 = byteOf ('<'))
  · rw [if_pos h1] at h
    rcases hn : indexByte (s.buf.drop (s.pos + 1)) (byteOf ('<')) with _ | n
    · rw [hn, if_pos hlt] at h
      injection h with h1 h2
      subst h1
      subst h2
      refine ⟨?_, by simpa using hlt, by simp, ?_, rfl⟩
      · show s.buf.drop s.pos = goSlice s.buf s.pos s.buf.length
        unfold goSlice
        rw [List.take_of_length_le (by simp)]
      · intro hnil
        have := congrArg List.length hnil
        simp at this
        omega
    · rw [hn] at h
      have hb : n < (s.buf.drop (s.pos + 1)).length := indexByte_lt_length hn
      rw [List.length_drop] at hb
      injection h with h1 h2
      subst h1
      subst h2
      refine ⟨rfl, by simp, by simp; omega, ?_, rfl⟩
      intro hnil
      have := congrArg List.length hnil
      unfold goSlice at this
      simp at this
      omega
  rw [if_neg h1] at h
  by_cases h2 : List.isPrefixOf prefixCDATA (s.buf.drop s.pos)
  · rw [if_pos h2] at h
    rcases hn : indexOfSub (s.buf.drop (s.pos + 8)) suffixCDATA with _ | e
    · rw [hn] at h
      injection h with h1 h2
      subst h1
      simp at he
    · rw [hn] at h
      have hb : e + suffixCDATA.length ≤ (s.buf.drop (s.pos + 8)).length :=
        indexOfSub_le_length hn
      rw [List.length_drop] at hb
      have hsl : suffixCDATA.length = 3 := by decide
      rw [hsl] at hb
      injection h with h1 h2
      subst h1
      subst h2
      refine ⟨rfl, by simp, by simp; omega, ?_, rfl⟩
      intro hnil
      have := congrArg List.length hnil
      unfold goSlice at this
      simp at this
      omega
  rw [if_neg h2] at h
  rcases hn : indexByte (s.buf.drop s.pos) (byteOf ('>')) with _ | e
  · rw [hn] at h
    injection h with h1 h2
    subst h1
    simp at he
  · rw [hn] at h
    have hb : e < (s.buf.drop s.pos).length := indexByte_lt_length hn
    rw [List.length_drop] at hb
    injection h with h1 h2
    subst h1
    subst h2
    refine ⟨rfl, by simp, by simp; omega, ?_, rfl⟩
    intro hnil
    have := congrArg List.length hnil
    unfold goSlice at this
    simp at this
    omega

/-- When `Scanner.Next` reports end of input the offset is already at the end
of the buffer (given the offset invariant). -/
theorem next_eof_at_end (s : Scanner) (r : NextRes) (s' : Scanner)
    (hpos : s.pos ≤ s.buf.length) (h : s.Next = (r, s'))
    (he : r.err = some ScanErr.eof) : s.pos = s.buf.length := by
  by_contra hne
  have hlt : s.pos < s.buf.length := by omega
  unfold Scanner.Next at h
  rw [if_neg hne] at h
  by_cases h1 : ¬ (s.buf.getD s.pos 0 = byteOf ('<'))
  · rw [if_pos h1] at h
    rcases hn : indexByte (s.buf.drop (s.pos + 1)) (byteOf ('<')) with _ | n
    · rw [hn, if_pos hlt] at h
      injection h with h1 h2
      subst h1
      simp at he
    · rw [hn] at h
      injection h with h1 h2
      subst h1
      simp at he
  rw [if_neg h1] at h
  by_cases h2 : List.isPrefixOf prefixCDATA (s.buf.drop s.pos)
  · rw [if_pos h2] at h
    rcases hn : indexOfSub (s.buf.drop (s.pos + 8)) suffixCDATA with _ | e
    · rw [hn] at h
      injection h with h1 h2
      subst h1
      simp at he
    · rw [hn] at h
      injection h with h1 h2
      subst h1
      simp at he
  · rw [if_neg h2] at h
    rcases hn : indexByte (s.buf.drop s.pos) (byteOf ('>')) with _ | e
    · rw [hn] at h
      injection h with h1 h2
      subst h1
      simp at he
    · rw [hn] at h
      injection h with h1 h2
      subst h1
      simp at he

/-- The tokens collected from any in-bounds scanner state concatenate to the
remaining buffer. -/
theorem scanTokens_flatten : ∀ (fuel : Nat) (s : Scanner) (toks : List (List Nat)),
    s.pos ≤ s.buf.length → scanTokens fuel s = some toks →
    toks.flatten = s.buf.drop s.pos
  | 0, _, _, _, h => by simp [scanTokens] at h
  | fuel + 1, s, toks, hpos, h => by
    rw [scanTokens] at h
    rcases hn : (s.Next).1.err with _ | e
    · rw [hn] at h
      rcases hm : scanTokens fuel (s.Next).2 with _ | rest
      · rw [hm] at h
        simp at h
      · rw [hm] at h
        simp only [Option.map_some'] at h
        rcases Option.some_inj.mp h with rfl
        obtain ⟨htok, hlt, hle, _, hbuf⟩ :=
          next_ok_step s (s.Next).1 (s.Next).2 hpos rfl hn
        have ih := scanTokens_flatten fuel (s.Next).2 rest (by rw [hbuf]; exact hle) hm
        rw [List.flatten_cons, ih, hbuf, htok]
        unfold goSlice
        have hdd : s.buf.drop (s.Next).2.pos = (s.buf.drop s.pos).drop ((s.Next).2.pos - s.pos) := by
          rw [List.drop_drop]
          congr 1
          omega
        rw [hdd, List.take_append_drop]
    · cases e with
      | eof =>
        rw [hn] at h
        rcases Option.some_inj.mp h with rfl
        have := next_eof_at_end s (s.Next).1 (s.Next).2 hpos rfl hn
        simp [List.drop_eq_nil_of_le, this]
      | cdataSuffix => rw [hn] at h; simp at h
      | elementSuffix => rw [hn] at h; simp at h

/-- C10: raw tokens of successive successful `Next` calls partition the
buffer: each successful non-EOF call returns exactly the slice between the
offsets before and after the call, strictly advances the offset within
bounds, never returns an empty token, and when scanning from offset 0
terminates at end of input the returned tokens concatenate to the whole
buffer. -/
theorem next_tokens_partition_buffer :
    (∀ (s : Scanner) (r : NextRes) (s' : Scanner),
      s.pos ≤ s.buf.length → s.Next = (r, s') → r.err = none →
      r.token = goSlice s.buf s.pos s'.pos ∧ s.pos < s'.pos ∧ s'.pos ≤ s.buf.length ∧
      r.token ≠ [] ∧ s'.buf = s.buf) ∧
    (∀ (buf : List Nat) (toks : List (List Nat)),
      scanTokens (buf.length + 1) ⟨buf, 0⟩ = some toks → toks.flatten = buf) := by
  refine ⟨next_ok_step, fun buf toks h => ?_⟩
  simpa using scanTokens_flatten (buf.length + 1) ⟨buf, 0⟩ toks (by simp) h

/-- Witness for the C10 theorem: a concrete step and the concrete partition of
the buffer `<a>hi</a>tail`. -/
theorem next_tokens_partition_buffer_witness :
    ((Scanner.Next ⟨strBytes ("<a>hi"), 0⟩).1.token =
      goSlice (strBytes ("<a>hi")) 0 (Scanner.Next ⟨strBytes ("<a>hi"), 0⟩).2.pos ∧
      0 < (Scanner.Next ⟨strBytes ("<a>hi"), 0⟩).2.pos ∧
      (Scanner.Next ⟨strBytes ("<a>hi"), 0⟩).2.pos ≤ (strBytes ("<a>hi")).length ∧
      (Scanner.Next ⟨strBytes ("<a>hi"), 0⟩).1.token ≠ [] ∧
      (Scanner.Next ⟨strBytes ("<a>hi"), 0⟩).2.buf = strBytes ("<a>hi")) ∧
    ∃ toks, scanTokens ((strBytes ("<a>hi</a>tail")).length + 1)
        ⟨strBytes ("<a>hi</a>tail"), 0⟩ = some toks ∧
      toks.flatten = strBytes ("<a>hi</a>tail") := by
  constructor
  · have := next_tokens_partition_buffer.1 ⟨strBytes ("<a>hi"), 0⟩
      (Scanner.Next ⟨strBytes ("<a>hi"), 0⟩).1 (Scanner.Next ⟨strBytes ("<a>hi"), 0⟩).2
      (by decide) rfl (by decide)
    simpa using this
  · refine ⟨[strBytes ("<a>"), strBytes ("hi"), strBytes ("</a>"), strBytes ("tail")], ?_, ?_⟩
    · decide
    · exact next_tokens_partition_buffer.2 (strBytes ("<a>hi</a>tail")) _ (by decide)

/-- A comment token is not an element: its second byte is an exclamation
mark, which `IsElement` excludes. -/
theorem IsElement_eq_false_of_IsComment {t : List Nat} (h : IsComment t = true) :
    IsElement t = false := by
  unfold IsComment at h
  simp only [Bool.and_eq_true, beq_iff_eq, decide_eq_true_eq] at h
  have hb : (t.getD 1 0 == byteOf ('!')) = true := beq_iff_eq.mpr h.1.1.2
  unfold IsElement
  rw [hb]
  simp

/-- A processing-instruction token is not an element: its second byte is a
question mark, which `IsElement` excludes. -/
theorem IsElement_eq_false_of_IsProcInst {t : List Nat} (h : IsProcInst t = true) :
    IsElement t = false := by
  unfold IsProcInst at h
  simp only [beq_iff_eq] at h
  have hb : (t.getD 1 0 == byteOf ('?')) = true := beq_iff_eq.mpr h
  unfold IsElement
  rw [hb]
  simp

/-- A directive token is not an element: its second byte is an exclamation
mark, which `IsElement` excludes. -/
theorem IsElement_eq_false_of_IsDirective {t : List Nat} (h : IsDirective t = true) :
    IsElement t = false := by
  unfold IsDirective at h
  simp only [Bool.and_eq_true, beq_iff_eq, decide_eq_true_eq] at h
  have hb : (t.getD 1 0 == byteOf ('!')) = true := beq_iff_eq.mpr h.1.1.2
  unfold IsElement
  rw [hb]
  simp

/-- A start-element token is not an end-element token: its second byte is not
a slash. -/
theorem IsEndElement_eq_false_of_IsStartElement {t : List Nat}
    (h : IsStartElement t = true) : IsEndElement t = false := by
  unfold IsStartElement at h
  simp only [Bool.and_eq_true, beq_iff_eq, Bool.not_eq_true', beq_eq_false_iff_ne,
    decide_eq_true_eq] at h
  have hb : (t.getD 1 0 == byteOf ('/')) = false := beq_eq_false_iff_ne.mpr h.2
  unfold IsEndElement
  rw [hb]
  simp

/-- C3: `Skip` repeatedly calls `Next` with a depth counter initialized to 1;
any error or end-of-input from `Next` is returned immediately; character
data, comments, processing instructions, directives and self-closing element
tags leave the depth unchanged; a start tag increments it; an end tag
decrements it; and the loop returns success exactly when the depth reaches
0. -/
theorem skip_counts_depth :
    (∀ s : Scanner, s.Skip = Scanner.SkipLoop (s.buf.length + 1) 1 s) ∧
    (∀ (fuel : Nat) (s : Scanner), Scanner.SkipLoop fuel 0 s = .ok s) ∧
    (∀ (fuel depth : Nat) (s : Scanner) (e : ScanErr),
      (s.Next).1.err = some e →
      Scanner.SkipLoop (fuel + 1) (depth + 1) s = .err e) ∧
    (∀ (fuel depth : Nat) (s : Scanner),
      (s.Next).1.err = none →
      ((s.Next).1.chardata = true ∨ IsComment (s.Next).1.token = true ∨
        IsProcInst (s.Next).1.token = true ∨ IsDirective (s.Next).1.token = true ∨
        (IsElement (s.Next).1.token = true ∧ IsSelfClosing (s.Next).1.token = true)) →
      Scanner.SkipLoop (fuel + 1) (depth + 1) s = Scanner.SkipLoop fuel (depth + 1) (s.Next).2) ∧
    (∀ (fuel depth : Nat) (s : Scanner),
      (s.Next).1.err = none → (s.Next).1.chardata = false →
      IsElement (s.Next).1.token = true → IsSelfClosing (s.Next).1.token = false →
      IsStartElement (s.Next).1.token = true →
      Scanner.SkipLoop (fuel + 1) (depth + 1) s = Scanner.SkipLoop fuel (depth + 2) (s.Next).2) ∧
    (∀ (fuel depth : Nat) (s : Scanner),
      (s.Next).1.err = none → (s.Next).1.chardata = false →
      IsElement (s.Next).1.token = true → IsSelfClosing (s.Next).1.token = false →
      IsEndElement (s.Next).1.token = true →
      Scanner.SkipLoop (fuel + 1) (depth + 1) s = Scanner.SkipLoop fuel depth (s.Next).2) := by
  refine ⟨fun s => rfl, fun fuel s => by cases fuel <;> rfl, ?_, ?_, ?_, ?_⟩
  · intro fuel depth s e hn
    rw [Scanner.SkipLoop]
    simp only [hn]
  · intro fuel depth s hn hcase
    rw [Scanner.SkipLoop]
    simp only [hn]
    rcases hcase with hcd | hc | hp | hd | ⟨hel, hsc⟩
    · simp [hcd]
    · simp [IsElement_eq_false_of_IsComment hc]
    · simp [IsElement_eq_false_of_IsProcInst hp]
    · simp [IsElement_eq_false_of_IsDirective hd]
    · simp [hel, hsc]
  · intro fuel depth s hn hcd hel hsc hst
    rw [Scanner.SkipLoop]
    simp only [hn]
    simp [hcd, hel, hsc, IsEndElement_eq_false_of_IsStartElement hst]
  · intro fuel depth s hn hcd hel hsc hend
    rw [Scanner.SkipLoop]
    simp only [hn]
    simp [hcd, hel, hsc, hend]

/-- Witness for the C3 theorem: each case instantiated on a concrete
scanner (end of input, a comment, a self-closing tag, a start tag and an end
tag). -/
theorem skip_counts_depth_witness :
    Scanner.SkipLoop 1 1 ⟨[], 0⟩ = .err ScanErr.eof ∧
    Scanner.SkipLoop 6 1 ⟨strBytes ("<!--c-->x"), 0⟩ =
      Scanner.SkipLoop 5 1 (Scanner.Next ⟨strBytes ("<!--c-->x"), 0⟩).2 ∧
    Scanner.SkipLoop 6 1 ⟨strBytes ("<a/>"), 0⟩ =
      Scanner.SkipLoop 5 1 (Scanner.Next ⟨strBytes ("<a/>"), 0⟩).2 ∧
    Scanner.SkipLoop 6 1 ⟨strBytes ("<a>"), 0⟩ =
      Scanner.SkipLoop 5 2 (Scanner.Next ⟨strBytes ("<a>"), 0⟩).2 ∧
    Scanner.SkipLoop 6 1 ⟨strBytes ("</a>"), 0⟩ =
      Scanner.SkipLoop 5 0 (Scanner.Next ⟨strBytes ("</a>"), 0⟩).2 :=
  ⟨skip_counts_depth.2.2.1 0 0 ⟨[], 0⟩ ScanErr.eof (by decide),
   skip_counts_depth.2.2.2.1 5 0 ⟨strBytes ("<!--c-->x"), 0⟩ (by decide)
     (Or.inr (Or.inl (by decide))),
   skip_counts_depth.2.2.2.1 5 0 ⟨strBytes ("<a/>"), 0⟩ (by decide)
     (Or.inr (Or.inr (Or.inr (Or.inr (by decide))))),
   skip_counts_depth.2.2.2.2.1 5 0 ⟨strBytes ("<a>"), 0⟩ (by decide) (by decide)
     (by decide) (by decide) (by decide),
   skip_counts_depth.2.2.2.2.2 5 0 ⟨strBytes ("</a>"), 0⟩ (by decide) (by decide)
     (by decide) (by decide) (by decide)⟩

theorem getD_drop (l : List Nat) (n i : Nat) :
    (l.drop n).getD i 0 = l.getD (n + i) 0 := by
  simp [List.getD_eq_getElem?_getD, List.getElem?_drop]

theorem goSlice_length (l : List Nat) (a b : Nat) :
    (goSlice l a b).length = min (b - a) (l.length - a) := by
  simp [goSlice]

theorem encodeRune_length_le_four (r : Int) : (encodeRune r).length ≤ 4 := by
  unfold encodeRune utf8Bytes
  split_ifs <;> simp

theorem parseInt32_ne_nil {s : List Nat} {base : Nat} {num : Int}
    (h : parseInt32 s base = some num) : s ≠ [] := by
  intro hnil
  subst hnil
  simp [parseInt32] at h

set_option maxRecDepth 8000 in
theorem htmlEntityTable_len_bound :
    ∀ p ∈ htmlEntityTable, (encodeRune ((p.2 : Nat) : Int)).length ≤ p.1.length + 2 := by
  decide

theorem htmlEntityLookup_len_bound {name decoded : List Nat}
    (h : htmlEntityLookup name = some decoded) : decoded.length ≤ name.length + 2 := by
  unfold htmlEntityLookup at h
  rcases hf : htmlEntityTable.find? (fun e => e.1 == name) with _ | p
  · rw [hf] at h
    simp at h
  · rw [hf] at h
    simp only [Option.map_some'] at h
    rcases Option.some_inj.mp h with rfl
    have hmem := List.mem_of_find?_eq_some hf
    have hp := List.find?_some hf
    simp only [beq_iff_eq] at hp
    have := htmlEntityTable_len_bound p hmem
    rw [hp] at this
    exact this

theorem indexByte_cons_ne_ge_one {b c : Nat} (hbc : ¬ (b = c)) {t : List Nat} {idx : Nat}
    (h : indexByte (b :: t) c = some idx) : 1 ≤ idx := by
  simp only [indexByte, hbc, if_false] at h
  rcases Option.map_eq_some'.mp h with ⟨m, _, rfl⟩
  omega

/-- Every successful entity substitution step appends at most `e + 2` bytes
to the scratch buffer (the entity occupies `e + 2` bytes of the input,
ampersand and semicolon included). -/
theorem decodeEntityStep_ok_len {inp : List Nat} {start e : Nat} {scratch scratch1 : List Nat}
    {scap : Nat} (he : start + e < inp.length)
    (h : decodeEntityStep inp start e scratch scap = .ok scratch1) :
    scratch1.length ≤ scratch.length + e + 2 := by
  have hent : (goSlice inp start (start + e)).length = e := by
    rw [goSlice_length]
    omega
  unfold decodeEntityStep at h
  by_cases hnum : inp.getD start 0 = byteOf ('#')
  · rw [if_pos hnum] at h
    simp only [] at h
    rcases hp : parseInt32 (goSlice inp
        (if (inp.getD (start + 1) 0 == byteOf ('x')) = true then start + 2 else start + 1)
        (start + e))
        (if (inp.getD (start + 1) 0 == byteOf ('x')) = true then 16 else 10) with _ | num
    · rw [hp] at h
      simp at h
    · rw [hp] at h
      dsimp only [] at h
      have hsne := parseInt32_ne_nil hp
      have hge : 2 ≤ e := by
        by_contra hlt
        apply hsne
        unfold goSlice
        cases hb : (inp.getD (start + 1) 0 == byteOf ('x')) <;>
          simp only [hb, Bool.false_eq_true, if_false, if_true] <;>
          (rw [List.take_eq_nil_iff]; left; omega)
      by_cases hcap : scap < scratch.length + 4
      · rw [if_pos hcap] at h
        simp at h
      · rw [if_neg hcap] at h
        rcases Except.ok.inj h with rfl
        have := encodeRune_length_le_four num
        simp only [List.length_append]
        omega
  · rw [if_neg hnum] at h
    simp only [] at h
    split_ifs at h with h1 h2 h3 h4 h5
    · rcases Except.ok.inj h with rfl
      simp
      omega
    · rcases Except.ok.inj h with rfl
      simp
      omega
    · rcases Except.ok.inj h with rfl
      simp
      omega
    · rcases Except.ok.inj h with rfl
      simp
      omega
    · rcases Except.ok.inj h with rfl
      simp
      omega
    · rcases hl : htmlEntityLookup (goSlice inp start (start + e)) with _ | decoded
      · rw [hl] at h
        simp at h
      · rw [hl] at h
        rcases Except.ok.inj h with rfl
        have := htmlEntityLookup_len_bound hl
        rw [hent] at this
        simp only [List.length_append]
        omega

/-- Output-length invariant of the decode loop: starting with scratch output
strictly shorter than the consumed part of the input and capacity equal to
the input length, a successful run produces at most `inp.length` bytes. -/
theorem decodeEntitiesLoop_length_le (inp : List Nat) :
    ∀ (fuel start : Nat) (scratch out : List Nat),
      scratch.length + 1 ≤ start →
      decodeEntitiesLoop inp fuel start scratch inp.length = .ok out →
      out.length ≤ inp.length
  | 0, start, scratch, out, _, h => by simp [decodeEntitiesLoop] at h
  | fuel + 1, start, scratch, out, hsc, h => by
    rw [decodeEntitiesLoop] at h
    rcases hse : indexByte (inp.drop start) (byteOf (';')) with _ | e
    · rw [hse] at h
      simp at h
    rw [hse] at h
    dsimp only [] at h
    have helt : e < (inp.drop start).length := indexByte_lt_length hse
    rw [List.length_drop] at helt
    have hlt : start + e < inp.length := by omega
    rcases hstep : decodeEntityStep inp start e scratch inp.length with err | scratch1
    · rw [hstep] at h
      simp at h
    rw [hstep] at h
    dsimp only [] at h
    have hs1 : scratch1.length ≤ scratch.length + e + 2 := decodeEntityStep_ok_len hlt hstep
    have hsemi : inp.getD (start + e) 0 = byteOf (';') := by
      have := indexByte_getD hse
      rwa [getD_drop] at this
    rcases ha : indexByte (inp.drop (start + e)) (byteOf ('&')) with _ | idx
    · rw [ha] at h
      rcases Except.ok.inj h with rfl
      simp only [List.length_append, List.length_drop]
      omega
    · rw [ha] at h
      have hdec : inp.drop (start + e) = inp.getD (start + e) 0 :: inp.drop (start + e + 1) := by
        rw [List.getD_eq_getElem inp 0 hlt]
        exact List.drop_eq_getElem_cons hlt
      have hidx : 1 ≤ idx := by
        rw [hdec] at ha
        refine indexByte_cons_ne_ge_one ?_ ha
        rw [hsemi]
        decide
      have hmax : max inp.length scratch1.length = inp.length :=
        Nat.max_eq_left (by omega)
      rw [hmax] at h
      exact decodeEntitiesLoop_length_le inp fuel (start + e + idx + 1) scratch1 out
        (by omega) h

/-- C1: whenever `DecodeEntities` succeeds with a nil scratch buffer, the
decoded output is no longer than the input. -/
theorem decodeEntities_output_le_input (inp out : List Nat)
    (h : DecodeEntities inp none = .ok out) : out.length ≤ inp.length := by
  unfold DecodeEntities at h
  rcases hs : indexByte inp (byteOf ('&')) with _ | start
  · rw [hs] at h
    rcases Except.ok.inj h with rfl
    exact le_refl _
  · rw [hs] at h
    have hlt : start < inp.length := indexByte_lt_length hs
    unfold decodeEntities at h
    dsimp only [] at h
    have hlen : (([] : List Nat) ++ inp.take start).length = start := by
      simp
      omega
    rw [show max inp.length (([] : List Nat) ++ inp.take start).length = inp.length from by
      rw [hlen]; exact Nat.max_eq_left (by omega)] at h
    exact decodeEntitiesLoop_length_le inp (inp.length + 1) (start + 1)
      (([] : List Nat) ++ inp.take start) out (by omega) h

/-- Witness for the C1 theorem at the concrete input `&#65;`. -/
theorem decodeEntities_output_le_input_witness :
    (strBytes ("A")).length ≤ (strBytes ("&#65;")).length :=
  decodeEntities_output_le_input (strBytes ("&#65;")) (strBytes ("A")) rfl

/-- C9: the entity decoder maps `&lt;&gt;&amp;&apos;&quot;` to the five bytes
of the characters less-than, greater-than, ampersand, apostrophe and double
quote, and maps `&#65;` and `&#x41;` to the single byte `A`. -/
theorem decode_predefined_and_numeric_entities :
    DecodeEntities (strBytes ("&lt;&gt;&amp;&apos;&quot;")) none = .ok [60, 62, 38, 39, 34] ∧
    DecodeEntities (strBytes ("&#65;")) none = .ok (strBytes ("A")) ∧
    DecodeEntities (strBytes ("&#x41;")) none = .ok (strBytes ("A")) :=
  ⟨rfl, rfl, rfl⟩

/-- C2 (failing case): `DecodeEntities` on the well-formed input `&#65;` with
a caller-supplied empty scratch slice of capacity 0 hits the Go runtime
panic modelled by `panicOOB`: the capacity test of decode.go grows the
buffer only when room already exists, so `scratch[size:size+utf8.UTFMax]`
is out of bounds — it does not return an error value. -/
theorem decode_scratch_capacity_panic :
    DecodeEntities (strBytes ("&#65;")) (some ([], 0)) = .error DecErr.panicOOB :=
  rfl

/-- C5: for every token of the form CDATA-open ++ x ++ CDATA-close, the
character-data extraction returns exactly the bytes x verbatim; in
particular the CharData derived from the token whose content is the five
bytes of the string amp-entity is those literal five bytes, not the
ampersand. -/
theorem chardata_cdata_verbatim :
    (∀ x : List Nat, CharData (prefixCDATA ++ x ++ suffixCDATA) none = .ok x) ∧
    CharData (strBytes ("<![CDATA[&amp;]]>")) none = .ok (strBytes ("&amp;")) := by
  constructor
  · intro x
    unfold CharData
    rw [if_pos]
    · congr 1
      unfold goSlice
      have hlen : (prefixCDATA ++ x ++ suffixCDATA).length = 9 + x.length + 3 := by
        simp [prefixCDATA, suffixCDATA, strBytes]
        omega
      rw [hlen]
      have hdrop : (prefixCDATA ++ x ++ suffixCDATA).drop 9 = x ++ suffixCDATA := by
        have : (9 : Nat) = prefixCDATA.length := by decide
        rw [this]
        exact List.drop_left prefixCDATA (x ++ suffixCDATA)
      rw [hdrop]
      have : 9 + x.length + 3 - 3 - 9 = x.length := by omega
      rw [this]
      exact List.take_left x suffixCDATA
    · constructor
      · exact List.isPrefixOf_iff_prefix.mpr ⟨x ++ suffixCDATA, rfl⟩
      · refine List.isSuffixOf_iff_suffix.mpr ⟨prefixCDATA ++ x, ?_⟩
        simp [List.append_assoc]
  · rfl

theorem indexByte_eq_none_of_not_mem {l : List Nat} {c : Nat} (h : c ∉ l) :
    indexByte l c = none := by
  rcases hn : indexByte l c with _ | n
  · rfl
  · have h1 := indexByte_getD hn
    have h2 := indexByte_lt_length hn
    rw [List.getD_eq_getElem l 0 h2] at h1
    exact absurd (h1 ▸ List.getElem_mem h2) h

theorem indexByte_append_cons {a : List Nat} {c : Nat} (h : c ∉ a) (b : List Nat) :
    indexByte (a ++ c :: b) c = some a.length := by
  rw [indexByte_append_of_not_mem h, indexByte_cons_self]
  simp

theorem indexFunc_append_pos {p : Nat → Bool} {a : List Nat} (ha : ∀ x ∈ a, ¬ p x)
    {c : Nat} (hc : p c) (b : List Nat) :
    indexFunc p (a ++ c :: b) = some a.length := by
  rw [indexFunc_append_of_none ha, indexFunc_cons_of_pos hc]
  simp

theorem isSpaceByte_ne {b : Nat} (h : isSpaceByte b = true) : b ≠ 61 ∧ b ≠ 34 := by
  unfold isSpaceByte at h
  simp only [Bool.or_eq_true, beq_iff_eq] at h
  omega

theorem drop_of_drop_append {t A B : List Nat} {o : Nat} (h : t.drop o = A ++ B) :
    t.drop (o + A.length) = B := by
  have h1 : (t.drop o).drop A.length = t.drop (o + A.length) := List.drop_drop A.length o t
  rw [← h1, h, List.drop_left]

theorem drop_of_drop_cons {t B : List Nat} {c : Nat} {o : Nat} (h : t.drop o = c :: B) :
    t.drop (o + 1) = B := by
  have h1 : (t.drop o).drop 1 = t.drop (o + 1) := List.drop_drop 1 o t
  rw [← h1, h]
  rfl

theorem goSlice_of_drop_append {t A B : List Nat} {o : Nat} (h : t.drop o = A ++ B) :
    goSlice t o (o + A.length) = A := by
  unfold goSlice
  rw [Nat.add_sub_cancel_left, h, List.take_left]

theorem lastIndexFunc_key_spaces {key w2 : List Nat} (hkey : key ≠ [])
    (hk : ∀ b ∈ key, notSpace b = true) (hw : ∀ b ∈ w2, notSpace b = false) :
    lastIndexFunc notSpace (key ++ w2) = some (key.length - 1) := by
  unfold lastIndexFunc
  rw [List.reverse_append]
  have hwrev : ∀ b ∈ w2.reverse, ¬ notSpace b := by
    intro b hb
    rw [List.mem_reverse] at hb
    simp [hw b hb]
  rw [indexFunc_append_of_none hwrev]
  rcases hrev : key.reverse with _ | ⟨h0, tl⟩
  · exact absurd (List.reverse_eq_nil_iff.mp hrev) hkey
  · have hmem : h0 ∈ key := by
      rw [← List.mem_reverse, hrev]
      simp
    rw [indexFunc_cons_of_pos (hk h0 hmem)]
    simp only [Option.map_some']
    congr 1
    have hkl : key.length ≠ 0 := by
      intro hz
      exact hkey (List.eq_nil_of_length_eq_zero hz)
    have hrl : tl.length + 1 = key.length := by
      have := congrArg List.length hrev
      simpa [List.length_reverse] using this.symm
    simp only [List.length_append, List.length_reverse]
    omega

theorem isSpaceRune_of_isSpaceByte {b : Nat} (h : isSpaceByte b = true) :
    isSpaceRune b = true := by
  simp only [isSpaceByte, Bool.or_eq_true, beq_iff_eq] at h
  simp only [isSpaceRune, Bool.or_eq_true, beq_iff_eq, decide_eq_true_eq]
  omega

theorem isSpaceByte_lt_128 {b : Nat} (h : isSpaceByte b = true) : b < 128 := by
  simp only [isSpaceByte, Bool.or_eq_true, beq_iff_eq] at h
  omega

theorem isSpaceRune_eq_false_of_ascii {b : Nat} (h128 : b < 128)
    (h : isSpaceByte b = false) : isSpaceRune b = false := by
  simp only [isSpaceByte, Bool.or_eq_false_iff, beq_eq_false_iff_ne] at h
  simp only [isSpaceRune, Bool.or_eq_false_iff, beq_eq_false_iff_ne,
    decide_eq_false_iff_not]
  omega

/-- On ASCII input the rune-based `bytes.IndexFunc` model takes the
one-byte fast path at every position, so it coincides with the byte-level
search. -/
theorem bytesIndexFuncAux_ascii {p : Nat → Bool} :
    ∀ (fuel : Nat) (l : List Nat), (∀ b ∈ l, b < 128) → l.length < fuel →
      bytesIndexFuncAux p fuel l = indexFunc p l
  | 0, l, _, hf => by simp at hf
  | _ + 1, [], _, _ => rfl
  | fuel + 1, b :: rest, ha, hf => by
    have hb : b < 128 := ha b (by simp)
    rw [bytesIndexFuncAux, if_pos hb]
    show _ = (if p b then some 0 else (indexFunc p rest).map (· + 1))
    by_cases hp : p b
    · rw [if_pos hp, if_pos hp]
    · rw [if_neg hp, if_neg hp,
        bytesIndexFuncAux_ascii fuel rest (fun x hx => ha x (by simp [hx]))
          (by simp only [List.length_cons] at hf; omega)]

theorem bytesIndexFunc_ascii {p : Nat → Bool} {l : List Nat}
    (ha : ∀ b ∈ l, b < 128) : bytesIndexFunc p l = indexFunc p l :=
  bytesIndexFuncAux_ascii (l.length + 1) l ha (by omega)

theorem lastIndexFunc_append_singleton (p : Nat → Bool) (A : List Nat) (b : Nat) :
    lastIndexFunc p (A ++ [b]) =
      if p b then some A.length else lastIndexFunc p A := by
  unfold lastIndexFunc
  rw [List.reverse_append]
  show (indexFunc p (b :: A.reverse)).map _ = _
  rw [show indexFunc p (b :: A.reverse) =
      (if p b then some 0 else (indexFunc p A.reverse).map (· + 1)) from rfl]
  by_cases hp : p b
  · rw [if_pos hp, if_pos hp]
    simp [List.length_append]
  · rw [if_neg hp, if_neg hp]
    cases hx : indexFunc p A.reverse
    · simp
    · simp only [Option.map_some']
      congr 1
      simp only [List.length_append, List.length_cons, List.length_nil]
      omega

/-- On ASCII input the rune-based `bytes.LastIndexFunc` model takes the
one-byte fast path at every position, so it coincides with the byte-level
search over the first `i` bytes. -/
theorem bytesLastIndexFuncAux_ascii {p : Nat → Bool} (l : List Nat)
    (ha : ∀ b ∈ l, b < 128) :
    ∀ (fuel i : Nat), i ≤ l.length → i < fuel →
      bytesLastIndexFuncAux p l fuel i = lastIndexFunc p (l.take i)
  | 0, _, _, hf => by omega
  | fuel + 1, 0, _, _ => by
    rw [bytesLastIndexFuncAux]
    simp [lastIndexFunc, indexFunc]
  | fuel + 1, j + 1, hle, hf => by
    have hjl : j < l.length := by omega
    have hmem : l.getD j 0 ∈ l := by
      rw [List.getD_eq_getElem l 0 hjl]
      exact List.getElem_mem hjl
    have hb : l.getD j 0 < 128 := ha _ hmem
    rw [bytesLastIndexFuncAux, if_neg (by omega : ¬ (j + 1 = 0))]
    simp only [Nat.add_sub_cancel]
    rw [if_pos hb]
    have htake : l.take (j + 1) = l.take j ++ [l.getD j 0] := by
      rw [List.take_succ, List.getElem?_eq_getElem hjl,
        List.getD_eq_getElem l 0 hjl]
      rfl
    rw [htake, lastIndexFunc_append_singleton]
    by_cases hp : p (l.getD j 0)
    · rw [if_pos hp, if_pos hp]
      congr 1
      simp only [List.length_take]
      omega
    · rw [if_neg hp, if_neg hp,
        bytesLastIndexFuncAux_ascii l ha fuel j (by omega) (by omega)]

theorem bytesLastIndexFunc_ascii {p : Nat → Bool} {l : List Nat}
    (ha : ∀ b ∈ l, b < 128) : bytesLastIndexFunc p l = lastIndexFunc p l := by
  unfold bytesLastIndexFunc
  rw [bytesLastIndexFuncAux_ascii l ha (l.length + 1) l.length (le_refl _) (by omega),
    List.take_length]

theorem RawAttrsLoop_step {σ : Type} (t : List Nat) (o : Nat) (p : AttrPair) (Z : List Nat)
    (hWF : WFPair p) (hdrop : t.drop o = renderPair p ++ Z)
    (f : σ → Nat → Nat → Nat → Nat → σ × Bool) (fuel : Nat) (st : σ) :
    RawAttrsLoop t f (fuel + 1) o st =
      (if (f st (o + p.ws1.length) (o + p.ws1.length + p.key.length)
          (o + p.ws1.length + p.key.length + p.ws2.length + p.ws3.length + 2)
          (o + p.ws1.length + p.key.length + p.ws2.length + p.ws3.length + 2
            + p.value.length)).2 then
        RawAttrsLoop t f fuel (o + (renderPair p).length)
          (f st (o + p.ws1.length) (o + p.ws1.length + p.key.length)
            (o + p.ws1.length + p.key.length + p.ws2.length + p.ws3.length + 2)
            (o + p.ws1.length + p.key.length + p.ws2.length + p.ws3.length + 2
              + p.value.length)).1
      else .ok (f st (o + p.ws1.length) (o + p.ws1.length + p.key.length)
          (o + p.ws1.length + p.key.length + p.ws2.length + p.ws3.length + 2)
          (o + p.ws1.length + p.key.length + p.ws2.length + p.ws3.length + 2
            + p.value.length)).1) := by
  obtain ⟨hklen, hkb, hw1, hw2, hw3, hval⟩ := hWF
  have hshapeA : t.drop o = (p.ws1 ++ p.key ++ p.ws2) ++ byteOf ('=') ::
      (p.ws3 ++ 34 :: (p.value ++ 34 :: Z)) := by
    rw [hdrop, renderPair]
    simp [List.append_assoc]
  have ho : o < t.length := by
    by_contra hno
    push_neg at hno
    have hnil : t.drop o = [] := List.drop_eq_nil_of_le hno
    rw [hnil] at hshapeA
    exact absurd hshapeA.symm (by simp)
  have hnotmemA : byteOf ('=') ∉ (p.ws1 ++ p.key ++ p.ws2) := by
    intro hmem
    simp only [List.mem_append] at hmem
    rcases hmem with (h1 | h2) | h3
    · exact absurd rfl (isSpaceByte_ne (hw1 _ h1)).1
    · exact absurd rfl (hkb _ h2).2.1
    · exact absurd rfl (isSpaceByte_ne (hw2 _ h3)).1
  have hEq : indexByte (t.drop o) (byteOf ('=')) =
      some (p.ws1 ++ p.key ++ p.ws2).length := by
    rw [hshapeA]
    exact indexByte_append_cons hnotmemA _
  rw [RawAttrsLoop, if_pos ho, hEq]
  dsimp only []
  obtain ⟨k0, ktl, hkeq⟩ : ∃ k0 ktl, p.key = k0 :: ktl := by
    rcases hk : p.key with _ | ⟨a, b⟩
    · rw [hk] at hklen
      simp at hklen
    · exact ⟨a, b, rfl⟩
  have hw1f : ∀ x ∈ p.ws1, ¬ notSpace x := by
    intro x hx
    simp [notSpace, isSpaceRune_of_isSpaceByte (hw1 x hx)]
  have hw2f : ∀ x ∈ p.ws2, notSpace x = false := by
    intro x hx
    simp [notSpace, isSpaceRune_of_isSpaceByte (hw2 x hx)]
  have hkt : ∀ x ∈ p.key, notSpace x = true := by
    intro x hx
    simp [notSpace, isSpaceRune_eq_false_of_ascii (hkb x hx).2.2.2 (hkb x hx).1]
  have hAascii : ∀ b ∈ p.ws1 ++ p.key ++ p.ws2, b < 128 := by
    intro b hb
    rcases List.mem_append.mp hb with hb1 | hb3
    · rcases List.mem_append.mp hb1 with hb1 | hb2
      · exact isSpaceByte_lt_128 (hw1 b hb1)
      · exact (hkb b hb2).2.2.2
    · exact isSpaceByte_lt_128 (hw2 b hb3)
  have e0 : (p.ws1 ++ p.key ++ p.ws2).length + o = o + (p.ws1 ++ p.key ++ p.ws2).length := by
    omega
  rw [e0, goSlice_of_drop_append hshapeA]
  have hA2 : p.ws1 ++ p.key ++ p.ws2 = p.ws1 ++ (k0 :: (ktl ++ p.ws2)) := by
    rw [hkeq]
    simp [List.append_assoc]
  have hk0 : notSpace k0 = true := hkt k0 (by rw [hkeq]; simp)
  have hidxf : bytesIndexFunc notSpace (p.ws1 ++ p.key ++ p.ws2) = some p.ws1.length := by
    rw [bytesIndexFunc_ascii hAascii, hA2]
    exact indexFunc_append_pos hw1f hk0 _
  rw [hidxf]
  dsimp only []
  have eKS : (if 0 < p.ws1.length then o + p.ws1.length else o) = o + p.ws1.length := by
    split_ifs <;> omega
  rw [eKS]
  have e1 : o + (p.ws1 ++ p.key ++ p.ws2).length =
      o + p.ws1.length + (p.key ++ p.ws2).length := by
    simp only [List.length_append]
    omega
  rw [e1]
  have hre : List.drop o t = p.ws1 ++ ((p.key ++ p.ws2) ++ (byteOf ('=') ::
      (p.ws3 ++ 34 :: (p.value ++ 34 :: Z)))) := by
    rw [hshapeA]
    simp [List.append_assoc]
  have hshapeW1 := drop_of_drop_append hre
  rw [goSlice_of_drop_append hshapeW1]
  have hkeyne : p.key ≠ [] := by
    rw [hkeq]
    simp
  have hKWascii : ∀ b ∈ p.key ++ p.ws2, b < 128 := by
    intro b hb
    rcases List.mem_append.mp hb with hb1 | hb2
    · exact (hkb b hb1).2.2.2
    · exact isSpaceByte_lt_128 (hw2 b hb2)
  rw [bytesLastIndexFunc_ascii hKWascii, lastIndexFunc_key_spaces hkeyne hkt hw2f]
  dsimp only []
  have eKE : (if 0 < p.key.length - 1 then o + p.ws1.length + (p.key.length - 1) + 1
      else o + p.ws1.length) = o + p.ws1.length + p.key.length := by
    split_ifs <;> omega
  rw [eKE]
  have hdropEq := drop_of_drop_append hshapeW1
  have hR := drop_of_drop_cons hdropEq
  rw [hR]
  have hw3ne : (34 : Nat) ∉ p.ws3 := by
    intro hmem
    exact absurd rfl (isSpaceByte_ne (hw3 _ hmem)).2
  rw [indexByte_append_cons hw3ne]
  dsimp only []
  have e2 : p.ws3.length + (o + p.ws1.length + (p.key ++ p.ws2).length + 1) + 1 =
      o + p.ws1.length + (p.key ++ p.ws2).length + 1 + p.ws3.length + 1 := by
    omega
  rw [e2]
  have hR2 := drop_of_drop_cons (drop_of_drop_append hR)
  rw [hR2]
  have hvne : (34 : Nat) ∉ p.value := by
    intro hmem
    exact absurd rfl (hval _ hmem)
  rw [indexByte_append_cons hvne]
  dsimp only []
  have eVS : o + p.ws1.length + (p.key ++ p.ws2).length + 1 + p.ws3.length + 1 =
      o + p.ws1.length + p.key.length + p.ws2.length + p.ws3.length + 2 := by
    simp only [List.length_append]
    omega
  rw [eVS]
  have eVE : p.value.length +
      (o + p.ws1.length + p.key.length + p.ws2.length + p.ws3.length + 2) =
      o + p.ws1.length + p.key.length + p.ws2.length + p.ws3.length + 2 + p.value.length := by
    omega
  rw [eVE]
  have eOFF : o + p.ws1.length + p.key.length + p.ws2.length + p.ws3.length + 2
      + p.value.length + 1 = o + (renderPair p).length := by
    simp only [renderPair, List.length_append, List.length_cons, List.length_nil]
    omega
  rw [eOFF]

theorem renderPair_length_pos (p : AttrPair) : 0 < (renderPair p).length := by
  simp [renderPair]

/-- Collecting-callback run over a well-formed span: starting at an offset
whose remaining bytes render the span, iteration appends exactly the
(key, value) pairs in source order and succeeds. -/
theorem RawAttrsLoop_collect :
    ∀ (ps : List AttrPair) (trail : List Nat) (t : List Nat) (o : Nat)
      (acc : List (List Nat × List Nat)) (fuel : Nat),
      t.drop o = renderAttrs ps trail →
      (∀ p ∈ ps, WFPair p) →
      (∀ b ∈ trail, isSpaceByte b = true) →
      ps.length + 1 ≤ fuel →
      RawAttrsLoop t (fun acc ks ke vs ve =>
          (acc ++ [(goSlice t ks ke, goSlice t vs ve)], true)) fuel o acc =
        .ok (acc ++ ps.map fun p => (p.key, p.value))
  | [], trail, t, o, acc, fuel, hdrop, _, htrail, hfuel => by
    obtain ⟨f, rfl⟩ : ∃ f, fuel = f + 1 := ⟨fuel - 1, by omega⟩
    have htr : t.drop o = trail := by
      rw [hdrop]
      simp [renderAttrs]
    have hns : bytesIndexFunc notSpace (t.drop o) = none := by
      rw [htr, bytesIndexFunc_ascii (fun b hb => isSpaceByte_lt_128 (htrail b hb))]
      exact indexFunc_none_iff.mpr
        (fun x hx => by simp [notSpace, isSpaceRune_of_isSpaceByte (htrail x hx)])
    rw [RawAttrsLoop]
    by_cases ho : o < t.length
    · rw [if_pos ho]
      have h61 : indexByte (t.drop o) (byteOf ('=')) = none := by
        apply indexByte_eq_none_of_not_mem
        rw [htr]
        intro hmem
        exact absurd rfl (isSpaceByte_ne (htrail _ hmem)).1
      rw [h61, hns]
      simp
    · rw [if_neg ho]
      rw [hns]
      simp
  | p :: rest, trail, t, o, acc, fuel, hdrop, hps, htrail, hfuel => by
    obtain ⟨f, rfl⟩ : ∃ f, fuel = f + 1 := ⟨fuel - 1, by omega⟩
    have hWF : WFPair p := hps p (by simp)
    have h0 : t.drop o = renderPair p ++ renderAttrs rest trail := by
      rw [hdrop]
      simp [renderAttrs, List.append_assoc]
    rw [RawAttrsLoop_step t o p (renderAttrs rest trail) hWF h0]
    dsimp only []
    have hkslice : goSlice t (o + p.ws1.length) (o + p.ws1.length + p.key.length) = p.key := by
      have hre : List.drop o t = p.ws1 ++ (p.key ++ (p.ws2 ++ [byteOf ('=')] ++ p.ws3
          ++ [34] ++ p.value ++ [34] ++ renderAttrs rest trail)) := by
        rw [h0, renderPair]
        simp [List.append_assoc]
      exact goSlice_of_drop_append (drop_of_drop_append hre)
    have hvslice : goSlice t (o + p.ws1.length + p.key.length + p.ws2.length
        + p.ws3.length + 2)
        (o + p.ws1.length + p.key.length + p.ws2.length + p.ws3.length + 2
          + p.value.length) = p.value := by
      have hre : List.drop o t = (p.ws1 ++ p.key ++ p.ws2 ++ [byteOf ('=')] ++ p.ws3
          ++ [34]) ++ (p.value ++ ([34] ++ renderAttrs rest trail)) := by
        rw [h0, renderPair]
        simp [List.append_assoc]
      have heq : o + (p.ws1 ++ p.key ++ p.ws2 ++ [byteOf ('=')] ++ p.ws3
          ++ [34]).length = o + p.ws1.length + p.key.length + p.ws2.length
          + p.ws3.length + 2 := by
        simp only [List.length_append, List.length_cons, List.length_nil]
        omega
      have := goSlice_of_drop_append (t := t)
        (A := p.value) (B := [34] ++ renderAttrs rest trail)
        (o := o + p.ws1.length + p.key.length + p.ws2.length + p.ws3.length + 2)
        (by rw [← heq]; exact drop_of_drop_append hre)
      exact this
    rw [if_pos rfl, hkslice, hvslice]
    have hdrop1 : t.drop (o + (renderPair p).length) = renderAttrs rest trail :=
      drop_of_drop_append h0
    rw [RawAttrsLoop_collect rest trail t (o + (renderPair p).length)
      (acc ++ [(p.key, p.value)]) f hdrop1 (fun q hq => hps q (by simp [hq]))
      htrail (by simp at hfuel; omega)]
    simp

theorem renderAttrs_length_ge (ps : List AttrPair) (trail : List Nat) :
    ps.length ≤ (renderAttrs ps trail).length := by
  induction ps with
  | nil => simp
  | cons p rest ih =>
    have h0 : renderAttrs (p :: rest) trail = renderPair p ++ renderAttrs rest trail := by
      simp [renderAttrs, List.append_assoc]
    rw [h0]
    have := renderPair_length_pos p
    simp only [List.length_append, List.length_cons]
    omega

/-- C6 (amended: keys ASCII and at least two bytes long, since `RawAttrs`
computes an empty key slice for a single-byte key and, the `LastIndexFunc`
of Go being rune-based, also for a key that is one two-byte rune, while
keys ending in a multi-byte rune are truncated): on every attributes span
of well-formed pairs, iteration invokes the callback exactly once per pair
in source order with the whitespace-trimmed key and the un-decoded quoted
value; and on the attributes of the token bytes
key=quote-value-quote another:complex = quote-key-quote it yields exactly
the two pairs (key, value) and (another:complex, key). -/
theorem attrs_iteration_wellformed (ps : List AttrPair) (trail : List Nat)
    (hps : ∀ p ∈ ps, WFPair p) (htrail : ∀ b ∈ trail, isSpaceByte b = true) :
    AttrsList (renderAttrs ps trail) = .ok (ps.map fun p => (p.key, p.value)) ∧
    AttrsList (strBytes ("key=\"value\" another:complex = \"key\"")) =
      .ok [(strBytes ("key"), strBytes ("value")),
           (strBytes ("another:complex"), strBytes ("key"))] := by
  constructor
  · unfold AttrsList RawAttrs
    have hfuel : ps.length + 1 ≤ (renderAttrs ps trail).length + 1 := by
      have := renderAttrs_length_ge ps trail
      omega
    have h := RawAttrsLoop_collect ps trail (renderAttrs ps trail) 0 []
      ((renderAttrs ps trail).length + 1) (by simp) hps htrail hfuel
    rw [h]
    simp
  · rfl

/-- Counterexample to C6 as stated: on the well-formed single-pair span
with the one-byte key a, iteration yields an empty key slice instead of
the key a; and the two-byte key consisting of the single rune e-acute
(bytes 0xC3 0xA9) likewise yields an empty key, because Go's rune-based
`LastIndexFunc` returns the start byte of the last rune, failing the
`idx > 0` guard. -/
theorem attrs_single_byte_key_counterexample :
    (AttrsList (strBytes ("a=\"v\"")) = .ok [([], strBytes ("v"))] ∧
     AttrsList (strBytes ("a=\"v\"")) ≠ .ok [(strBytes ("a"), strBytes ("v"))]) ∧
    (AttrsList ([0xC3, 0xA9] ++ strBytes ("=\"v\"")) = .ok [([], strBytes ("v"))] ∧
     AttrsList ([0xC3, 0xA9] ++ strBytes ("=\"v\"")) ≠
       .ok [([0xC3, 0xA9], strBytes ("v"))]) := by
  exact ⟨⟨rfl, by decide⟩, ⟨rfl, by decide⟩⟩

/-- Witness for the C6 theorem at the concrete span of the claim. -/
theorem attrs_iteration_wellformed_witness :
    AttrsList (renderAttrs [⟨[], strBytes ("key"), [], [], strBytes ("value")⟩,
        ⟨[32], strBytes ("another:complex"), [32], [32], strBytes ("key")⟩] []) =
      .ok [(strBytes ("key"), strBytes ("value")),
           (strBytes ("another:complex"), strBytes ("key"))] ∧
    renderAttrs [⟨[], strBytes ("key"), [], [], strBytes ("value")⟩,
        ⟨[32], strBytes ("another:complex"), [32], [32], strBytes ("key")⟩] [] =
      strBytes ("key=\"value\" another:complex = \"key\"") := by
  constructor
  · exact (attrs_iteration_wellformed
      [⟨[], strBytes ("key"), [], [], strBytes ("value")⟩,
       ⟨[32], strBytes ("another:complex"), [32], [32], strBytes ("key")⟩] []
      (by decide) (by decide)).1
  · decide

theorem Dec.parseProcInst_ok_shape {buf : List Nat} {td : Dec.Token × Nat}
    (h : Dec.parseProcInst buf = .ok td) : ∃ a b, td.1 = .procInst a b := by
  unfold Dec.parseProcInst at h
  rcases h1 : indexByte buf 32 with _ | space
  · rw [h1] at h
    simp at h
  rw [h1] at h
  dsimp only [] at h
  rcases h2 : indexOfSub (buf.drop space) (strBytes ("?>")) with _ | e
  · rw [h2] at h
    simp at h
  · rw [h2] at h
    rcases Except.ok.inj h with rfl
    exact ⟨_, _, rfl⟩

theorem Dec.parsePotentialDirective_ok_shape {buf : List Nat} {td : Dec.Token × Nat}
    (h : Dec.parsePotentialDirective buf = .ok td) :
    (∃ a, td.1 = .cdata a) ∨ (∃ a, td.1 = .comment a) ∨ (∃ a, td.1 = .directive a) := by
  unfold Dec.parsePotentialDirective at h
  by_cases h1 : List.isPrefixOf (strBytes ("[CDATA[")) buf
  · rw [if_pos h1] at h
    rcases h2 : indexOfSub buf (strBytes ("]]>")) with _ | e
    · rw [h2] at h
      simp at h
    · rw [h2] at h
      rcases Except.ok.inj h with rfl
      exact Or.inl ⟨_, rfl⟩
  rw [if_neg h1] at h
  by_cases h2 : List.isPrefixOf (strBytes ("--")) buf
  · rw [if_pos h2] at h
    rcases h3 : indexOfSub buf (strBytes ("-->")) with _ | e
    · rw [h3] at h
      simp at h
    · rw [h3] at h
      rcases Except.ok.inj h with rfl
      exact Or.inr (Or.inl ⟨_, rfl⟩)
  · rw [if_neg h2] at h
    rcases h3 : indexByte buf (byteOf ('>')) with _ | e
    · rw [h3] at h
      simp at h
    · rw [h3] at h
      rcases Except.ok.inj h with rfl
      exact Or.inr (Or.inr ⟨_, rfl⟩)

/-- C4: when a pending synthetic end element exists, the next `RawToken`
call returns it and only clears the pending slot (cursor, lookahead and
buffer untouched); a pending token exists after a call exactly when that
call returned a `StartElement` parsed with the self-closing flag, and it
carries the same name; and decoding the four bytes of a self-closing tag
named a yields that StartElement immediately followed by the synthetic
EndElement with no advancement between the two calls. -/
theorem pending_end_element_synthesis :
    (∀ (d : Dec.Decoder) (e : Dec.EndElement), d.nextToken = some e →
      d.RawToken = (.ok (.endElement e), { d with nextToken := none })) ∧
    (∀ (d : Dec.Decoder) (r : Except Dec.DecodeErr Dec.Token) (d' : Dec.Decoder)
      (e : Dec.EndElement),
      d.nextToken = none → d.RawToken = (r, d') → d'.nextToken = some e →
      ∃ se offset, r = .ok (.startElement se) ∧ e = Dec.StartElement.End se ∧
        Dec.parseElement (d.buf.drop (d.cursor + 1)) = .ok (se, offset, true)) ∧
    (∀ (d : Dec.Decoder) (r : Except Dec.DecodeErr Dec.Token) (d' : Dec.Decoder)
      (se : Dec.StartElement) (offset : Nat),
      d.nextToken = none → d.RawToken = (r, d') →
      Dec.parseElement (d.buf.drop (d.cursor + 1)) = .ok (se, offset, true) →
      r = .ok (.startElement se) → d'.nextToken = some (Dec.StartElement.End se)) ∧
    ((Dec.NewDecoder (strBytes ("<a/>"))).RawToken =
      (.ok (.startElement ⟨⟨[], strBytes ("a")⟩, []⟩),
       ⟨strBytes ("<a/>"), 4, 4, some ⟨⟨[], strBytes ("a")⟩⟩⟩) ∧
     Dec.Decoder.RawToken ⟨strBytes ("<a/>"), 4, 4, some ⟨⟨[], strBytes ("a")⟩⟩⟩ =
      (.ok (.endElement ⟨⟨[], strBytes ("a")⟩⟩), ⟨strBytes ("<a/>"), 4, 4, none⟩)) := by
  refine ⟨?_, ?_, ?_, by decide, by decide⟩
  · intro d e h
    unfold Dec.Decoder.RawToken
    rw [h]
  · intro d r d' e hn h hp
    unfold Dec.Decoder.RawToken at h
    rw [hn] at h
    dsimp only [] at h
    by_cases h1 : d.buf.length ≤ d.cursor
    · rw [if_pos h1] at h
      injection h with h2 h3
      subst h3
      rw [hn] at hp
      simp at hp
    rw [if_neg h1] at h
    by_cases h2 : (d.cursor : Int) < d.next
    · rw [if_pos h2] at h
      injection h with h3 h4
      subst h4
      simp [hn] at hp
    rw [if_neg h2] at h
    by_cases h3 : d.buf.length - (d.cursor + 1) < 2
    · rw [if_pos h3] at h
      injection h with h4 h5
      subst h5
      simp [hn] at hp
    rw [if_neg h3] at h
    by_cases h4 : d.buf.getD (d.cursor + 1) 0 = byteOf ('?')
    · rw [if_pos h4] at h
      rcases h5 : Dec.parseProcInst (d.buf.drop (d.cursor + 1 + 1)) with err | td
      · rw [h5] at h
        injection h with h6 h7
        subst h7
        simp [hn] at hp
      · rw [h5] at h
        injection h with h6 h7
        subst h7
        simp [hn] at hp
    rw [if_neg h4] at h
    by_cases h6 : d.buf.getD (d.cursor + 1) 0 = byteOf ('!')
    · rw [if_pos h6] at h
      rcases h7 : Dec.parsePotentialDirective (d.buf.drop (d.cursor + 1 + 1)) with err | td
      · rw [h7] at h
        injection h with h8 h9
        subst h9
        simp [hn] at hp
      · rw [h7] at h
        injection h with h8 h9
        subst h9
        simp [hn] at hp
    rw [if_neg h6] at h
    rcases h7 : Dec.parseElement (d.buf.drop (d.cursor + 1)) with err | sec
    · rw [h7] at h
      injection h with h8 h9
      subst h9
      simp [hn] at hp
    · rw [h7] at h
      injection h with h8 h9
      subst h8
      subst h9
      rcases hcl : sec.2.2 with _ | _
      · rw [hcl] at hp
        simp at hp
      · rw [hcl] at hp
        simp only [if_true] at hp
        rcases Option.some_inj.mp hp with rfl
        refine ⟨sec.1, sec.2.1, rfl, rfl, ?_⟩
        rw [← hcl]
  · intro d r d' se offset hn h hpe hr
    subst hr
    unfold Dec.Decoder.RawToken at h
    rw [hn] at h
    dsimp only [] at h
    by_cases h1 : d.buf.length ≤ d.cursor
    · rw [if_pos h1] at h
      injection h with h2 h3
      simp at h2
    rw [if_neg h1] at h
    by_cases h2 : (d.cursor : Int) < d.next
    · rw [if_pos h2] at h
      injection h with h3 h4
      simp at h3
    rw [if_neg h2] at h
    by_cases h3 : d.buf.length - (d.cursor + 1) < 2
    · rw [if_pos h3] at h
      injection h with h4 h5
      simp at h4
    rw [if_neg h3] at h
    by_cases h4 : d.buf.getD (d.cursor + 1) 0 = byteOf ('?')
    · rw [if_pos h4] at h
      rcases h5 : Dec.parseProcInst (d.buf.drop (d.cursor + 1 + 1)) with err | td
      · rw [h5] at h
        injection h with h6 h7
        simp at h6
      · rw [h5] at h
        injection h with h6 h7
        obtain ⟨a, b, hab⟩ := Dec.parseProcInst_ok_shape h5
        rw [hab] at h6
        simp at h6
    rw [if_neg h4] at h
    by_cases h6 : d.buf.getD (d.cursor + 1) 0 = byteOf ('!')
    · rw [if_pos h6] at h
      rcases h7 : Dec.parsePotentialDirective (d.buf.drop (d.cursor + 1 + 1)) with err | td
      · rw [h7] at h
        injection h with h8 h9
        simp at h8
      · rw [h7] at h
        injection h with h8 h9
        rcases Dec.parsePotentialDirective_ok_shape h7 with ⟨a, ha⟩ | ⟨a, ha⟩ | ⟨a, ha⟩ <;>
          · rw [ha] at h8
            simp at h8
    rw [if_neg h6] at h
    rw [hpe] at h
    injection h with h8 h9
    subst h9
    simp

/-- Witness for the C4 theorem: the pending-return, pending-creation and
converse parts instantiated on the concrete decoder states of `<a/>`. -/
theorem pending_end_element_synthesis_witness :
    Dec.Decoder.RawToken ⟨strBytes ("<a/>"), 4, 4, some ⟨⟨[], strBytes ("a")⟩⟩⟩ =
      (.ok (.endElement ⟨⟨[], strBytes ("a")⟩⟩), ⟨strBytes ("<a/>"), 4, 4, none⟩) ∧
    (∃ se offset,
      (Dec.NewDecoder (strBytes ("<a/>"))).RawToken.1 = .ok (.startElement se) ∧
      (⟨⟨[], strBytes ("a")⟩⟩ : Dec.EndElement) = Dec.StartElement.End se ∧
      Dec.parseElement ((strBytes ("<a/>")).drop 1) = .ok (se, offset, true)) ∧
    ((Dec.NewDecoder (strBytes ("<a/>"))).RawToken.2.nextToken =
      some (Dec.StartElement.End ⟨⟨[], strBytes ("a")⟩, []⟩)) := by
  refine ⟨?_, ?_, ?_⟩
  · exact pending_end_element_synthesis.1
      ⟨strBytes ("<a/>"), 4, 4, some ⟨⟨[], strBytes ("a")⟩⟩⟩ ⟨⟨[], strBytes ("a")⟩⟩ rfl
  · exact pending_end_element_synthesis.2.1 (Dec.NewDecoder (strBytes ("<a/>")))
      (Dec.NewDecoder (strBytes ("<a/>"))).RawToken.1
      (Dec.NewDecoder (strBytes ("<a/>"))).RawToken.2
      ⟨⟨[], strBytes ("a")⟩⟩ rfl rfl (by decide)
  · exact pending_end_element_synthesis.2.2.1 (Dec.NewDecoder (strBytes ("<a/>")))
      (Dec.NewDecoder (strBytes ("<a/>"))).RawToken.1
      (Dec.NewDecoder (strBytes ("<a/>"))).RawToken.2
      ⟨⟨[], strBytes ("a")⟩, []⟩ 3 rfl rfl (by decide) (by decide)
